import Mathlib

/-!
Verification of the dependency-graph / Makefile-generation core of
`makefile.py` (an automatic Makefile generator for C/C++ codebases).

The program is shallowly embedded: file names and all emitted text are
lists of characters (`Name`); the per-extension class hierarchy
(`CCFile`, `CFile`, `HeaderFile`, `CCHFile`, `ProtobufFile`) becomes a
`Kind` tag plus functions matching on it; the global `file_map` dict
becomes an association list built by the same claim/conflict loop; the
mutable `dependencies` lists become a dependency function produced by the
same resolution loop; the recursive seen-set traversal
(`File.__recursive_deps`) becomes a fuel-indexed recursion (the fuel only
bounds the recursion depth; stabilization at fuel `|files| + 1` is proved
below, matching the unbounded Python recursion which terminates for the
same seen-set reason).

The regex extraction helpers (`has_main`, `get_includes`, `get_imports`,
`get_compileargs`, `get_linkargs`) are the text-parsing boundary of the
program: their results for one source file are taken as an abstract
`Contents` record (ordered lists of extracted strings, in order of
appearance, as `re.findall` returns them, and the entry-point flag).
`os.walk` discovery and actual filesystem/`mkdir` effects are likewise
outside the embedded core; discovered files enter as a list.
-/

/-- Strings of the embedded program are lists of characters. -/
abbrev Name := List Char

/-- Coerce a Lean string literal to an embedded string. -/
def str (s : String) : Name := s.data

/-- Newline character appended by each `print` call. -/
def nl : Name := ['\n']

/-- `os.path.join(a, b)` for the case arising in the program: `a`
nonempty, not ending in a slash, `b` relative. -/
def pathjoin (a b : Name) : Name := a ++ ['/'] ++ b

/-- Three-component `os.path.join(a, b, c)` (same normal case). -/
def pathjoin3 (a b c : Name) : Name := a ++ ['/'] ++ b ++ ['/'] ++ c

/-- `os.path.dirname`: everything before the last slash, empty if none. -/
def dirname (n : Name) : Name :=
  (((n.reverse.dropWhile (fun c => c ≠ '/')).drop 1)).reverse

/-- `" ".join(...)`. -/
def joinSpace : List Name → Name
  | [] => []
  | [x] => x
  | x :: y :: xs => x ++ ' ' :: joinSpace (y :: xs)

/-- Decidable equality for `Except`, so that concrete runs of the
embedded phases can be checked by `decide`. -/
instance {α β : Type} [DecidableEq α] [DecidableEq β] :
    DecidableEq (Except α β) := fun a b =>
  match a, b with
  | .ok x, .ok y =>
    if h : x = y then .isTrue (by rw [h])
    else .isFalse (fun he => by cases he; exact h rfl)
  | .error x, .error y =>
    if h : x = y then .isTrue (by rw [h])
    else .isFalse (fun he => by cases he; exact h rfl)
  | .ok _, .error _ => .isFalse (fun he => by cases he)
  | .error _, .ok _ => .isFalse (fun he => by cases he)

/-- The registered file kinds: the `@handles` decorators register
`.cc → CCFile`, `.c → CFile`, `.h → HeaderFile`, `.cch → CCHFile`,
`.proto → ProtobufFile`. -/
inductive Kind where
  | cc | c | h | cch | proto
deriving DecidableEq, Repr

/-- The extension registered for each kind (`handles(extension=...)`). -/
def extOf : Kind → Name
  | .cc => str ".cc"
  | .c => str ".c"
  | .h => str ".h"
  | .cch => str ".cch"
  | .proto => str ".proto"

/-- The `produces` list registered for each kind
(`handles(..., produces=...)`; `None` becomes `[]`). -/
def producesOf : Kind → List Name
  | .cc => [str ".o"]
  | .c => [str ".o"]
  | .h => []
  | .cch => [str ".cch.o"]
  | .proto => [str ".grpc.pb.o", str ".pb.o"]

/-- Python class name of each kind (used by the duplicate-alias
error message's `type(...).__name__`). -/
def typeName : Kind → Name
  | .cc => str "CCFile"
  | .c => str "CFile"
  | .h => str "HeaderFile"
  | .cch => str "CCHFile"
  | .proto => str "ProtobufFile"

/-- One discovered file.  In the source, `File.__init__` computes
`self.base, self.extension = os.path.splitext(self.filename)`, so
`filename = base ++ extension` always; we store `base` and the kind and
derive the rest.  `includes`, `compileargs`, `linkargs` and the
`CCFile`-private `__is_link_target` flag are the fields set by the
per-kind `initialize`. -/
structure File where
  base : Name
  kind : Kind
  includes : List Name
  compileargs : List Name
  linkargs : List Name
  is_link_target : Bool
deriving DecidableEq, Repr

def File.filename (f : File) : Name := f.base ++ extOf f.kind

/-- `File.swap_extension`: `self.base + new_extension`. -/
def File.swap_extension (f : File) (e : Name) : Name := f.base ++ e

/-- `get_aliases`, per kind: `File` default is `[self.filename]`
(used by `HeaderFile`); `CCFile`/`CFile` add `swap_extension(".h")`;
`CCHFile` returns `[self.filename, self.filename + ".h"]`;
`ProtobufFile` adds the two generated-header names. -/
def aliasesOf : Kind → Name → List Name
  | .cc, b => [b ++ str ".cc", b ++ str ".h"]
  | .c, b => [b ++ str ".c", b ++ str ".h"]
  | .h, b => [b ++ str ".h"]
  | .cch, b => [b ++ str ".cch", b ++ str ".cch" ++ str ".h"]
  | .proto, b => [b ++ str ".proto", b ++ str ".pb.h", b ++ str ".grpc.pb.h"]

def File.get_aliases (f : File) : List Name := aliasesOf f.kind f.base

/-- `artifacts`: `get_variants(self.produces)` with no prepended
directory (`os.path.join("", x) = x`). -/
def File.artifacts (f : File) : List Name :=
  (producesOf f.kind).map (fun e => f.base ++ e)

/-- Result of extracting one source file's text with the regex helpers:
the ordered `re.findall` results and the `has_main` flag. -/
structure Contents where
  includes : List Name
  importNames : List Name
  compileargs : List Name
  linkargs : List Name
  has_main : Bool
deriving DecidableEq, Repr

/-- The per-kind `initialize` (the name `initialize` itself cannot be
used here).  `CCFile` records `has_main` as its link-target flag;
`CFile` extracts the same lists but never checks `has_main`;
`HeaderFile` and `CCHFile` filter out includes that are among the file's
own aliases; `ProtobufFile` uses `get_imports` instead of
`get_includes`. -/
def initFile (k : Kind) (base : Name) (c : Contents) : File :=
  match k with
  | .cc => ⟨base, .cc, c.includes, c.compileargs, c.linkargs, c.has_main⟩
  | .c => ⟨base, .c, c.includes, c.compileargs, c.linkargs, false⟩
  | .h => ⟨base, .h,
      c.includes.filter (fun s => decide (s ∉ aliasesOf .h base)),
      [], [], false⟩
  | .cch => ⟨base, .cch,
      c.includes.filter (fun s => decide (s ∉ aliasesOf .cch base)),
      c.compileargs, c.linkargs, false⟩
  | .proto => ⟨base, .proto, c.importNames, [], [], false⟩

/-- `FileAction` enum. -/
inductive FileAction where
  | INCOMPATIBLE | REPLACE | DROP
deriving DecidableEq, Repr

/-- `has_relation`: the `File` base class returns `INCOMPATIBLE`;
`CCFile`/`CFile` return `DROP` when the other file is their own header
(`swap_extension(".h") == file.filename`); `HeaderFile` returns
`REPLACE` when a same-base file of extension `.cc` or `.c` claims its
name. -/
def has_relation (self other : File) : FileAction :=
  match self.kind with
  | .cc => if self.swap_extension (str ".h") = other.filename
      then .DROP else .INCOMPATIBLE
  | .c => if self.swap_extension (str ".h") = other.filename
      then .DROP else .INCOMPATIBLE
  | .h => if self.base = other.base ∧
        (extOf other.kind = str ".cc" ∨ extOf other.kind = str ".c")
      then .REPLACE else .INCOMPATIBLE
  | .cch => .INCOMPATIBLE
  | .proto => .INCOMPATIBLE

/-- The global `file_map` dict, as an association list; an entry
prepended later shadows an older one (dict assignment overwrites). -/
abbrev FMap := List (Name × File)

def fmFind (fm : FMap) (n : Name) : Option File :=
  match fm with
  | [] => none
  | (m, g) :: rest => if m = n then some g else fmFind rest n

def fmInsert (fm : FMap) (n : Name) (f : File) : FMap := (n, f) :: fm

/-- The duplicate-alias `Exception` message raised in the alias loop:
`f"{alias} ({type(in_map).__name__}) already exists"
 f"in file map as {in_map} ({type(in_map).__name__})"`
(note: both type names are the existing owner's, and the two f-string
fragments concatenate without a space, exactly as in the source). -/
def dupMsg (aliasName : Name) (in_map : File) : Name :=
  aliasName ++ str " (" ++ typeName in_map.kind ++ str ") already exists" ++
    str "in file map as " ++ in_map.filename ++ str " (" ++
    typeName in_map.kind ++ str ")"

/-- The unresolved-include `Exception` message:
`f"{file.filename} references unknown file {include}"`. -/
def unresolvedMsg (f : File) (include_ : Name) : Name :=
  f.filename ++ str " references unknown file " ++ include_

/-- The inner alias loop of `__main__`: for each alias of the new file,
look it up; on a hit consult the existing owner's `has_relation`:
`INCOMPATIBLE` raises, `DROP` skips this alias (`continue`), `REPLACE`
falls through to the assignment `file_map[alias] = file`. -/
def claimAliases (f : File) : List Name → FMap → Except Name FMap
  | [], fm => .ok fm
  | n :: rest, fm =>
    match fmFind fm n with
    | none => claimAliases f rest (fmInsert fm n f)
    | some in_map =>
      match has_relation in_map f with
      | .INCOMPATIBLE => .error (dupMsg n in_map)
      | .DROP => claimAliases f rest fm
      | .REPLACE => claimAliases f rest (fmInsert fm n f)

/-- The discovery/alias phase of `__main__`: files are processed in
discovery order, each claiming all of its aliases. -/
def buildFileMap : List File → FMap → Except Name FMap
  | [], fm => .ok fm
  | f :: fs, fm =>
    match claimAliases f f.get_aliases fm with
    | .error e => .error e
    | .ok fm' => buildFileMap fs fm'

/-- The edge-resolution loop body for one file: each include is looked
up in the completed map; a miss raises; a hit appends the owner to
`file.dependencies` unless it `is` the file itself.  (Each `File` object
is constructed once, so Python object identity coincides with value
equality here.) -/
def resolveList (fm : FMap) (f : File) : List Name → Except Name (List File)
  | [] => .ok []
  | n :: rest =>
    match fmFind fm n with
    | none => .error (unresolvedMsg f n)
    | some d =>
      match resolveList fm f rest with
      | .error e => .error e
      | .ok ds => .ok (if d = f then ds else d :: ds)

def resolveIncludes (fm : FMap) (f : File) : Except Name (List File) :=
  resolveList fm f f.includes

/-- The whole edge-resolution loop, pairing each file with its
`dependencies` list. -/
def resolveAll (fm : FMap) : List File → Except Name (List (File × List File))
  | [] => .ok []
  | f :: fs =>
    match resolveIncludes fm f with
    | .error e => .error e
    | .ok ds =>
      match resolveAll fm fs with
      | .error e => .error e
      | .ok rest => .ok ((f, ds) :: rest)

/-- Read a dependency function out of the resolved pair list
(`file.dependencies`, defaulting to `[]` for unknown files). -/
def mkD (l : List (File × List File)) (f : File) : List File :=
  match l.find? (fun p => p.1 == f) with
  | some p => p.2
  | none => []

/-- `File.__recursive_deps`: depth-first walk over `self.dependencies`,
appending each not-yet-seen file to `deps` and its `filename` to `seen`
before recursing into it.  `D` is the dependency function; the fuel
bounds recursion depth only (see the stabilization theorem). -/
def recursive_deps (D : File → List File) : Nat → File →
    List File × List Name → List File × List Name
  | 0, _, st => st
  | fuel + 1, f, st =>
    (D f).foldl
      (fun st dep =>
        if dep.filename ∈ st.2 then st
        else recursive_deps D fuel dep
          (st.1 ++ [dep], st.2 ++ [dep.filename]))
      st

/-- Top-level call `self.__recursive_deps()` (fresh `deps`/`seen`). -/
def recursiveDeps (D : File → List File) (fuel : Nat) (f : File) :
    List File := (recursive_deps D fuel f ([], [])).1

/-- `[-1:]` on a Python list. -/
def lastSlice (l : List Name) : List Name :=
  match l.getLast? with
  | none => []
  | some a => [a]

/-- `get_compile_dependencies`: `__apply_rec(lambda dep: dep.get_aliases()[-1:])`. -/
def get_compile_dependencies (D : File → List File) (fuel : Nat)
    (f : File) : List Name :=
  (recursiveDeps D fuel f).flatMap (fun dep => lastSlice dep.get_aliases)

/-- `get_link_dependencies`: `__apply_rec(lambda dep: dep.artifacts())`. -/
def get_link_dependencies (D : File → List File) (fuel : Nat)
    (f : File) : List Name :=
  (recursiveDeps D fuel f).flatMap File.artifacts

/-- `get_linkargs`: `set(__apply_rec(lambda dep: dep.linkargs))`; the
Python set's iteration order is modelled as first-occurrence order. -/
def get_linkargs (D : File → List File) (fuel : Nat) (f : File) :
    List Name :=
  ((recursiveDeps D fuel f).flatMap File.linkargs).dedup

/-! ### String toolbox

Facts about appended concrete suffixes, used to analyse which alias and
artifact names can collide. -/

/-- Scans two reversed strings for a position where they differ. -/
def revMismatchAux : Name → Name → Bool
  | c :: cs, d :: ds => decide (c ≠ d) || revMismatchAux cs ds
  | _, _ => false

/-- True when the two strings differ at some common position from their
right ends; then no left extensions can make them equal. -/
def revMismatch (a b : Name) : Bool := revMismatchAux a.reverse b.reverse

theorem revMismatchAux_ne {a b : Name} (h : revMismatchAux a b = true) :
    ∀ u v : Name, a ++ u ≠ b ++ v := by
  induction a generalizing b with
  | nil => cases b <;> simp [revMismatchAux] at h
  | cons c cs ih =>
    cases b with
    | nil => simp [revMismatchAux] at h
    | cons d ds =>
      intro u v heq
      simp only [revMismatchAux, Bool.or_eq_true, decide_eq_true_eq] at h
      simp only [List.cons_append, List.cons.injEq] at heq
      rcases h with h | h
      · exact h heq.1
      · exact ih h u v heq.2

theorem append_suffix_ne {t₁ t₂ : Name} (h : revMismatch t₁ t₂ = true)
    (x y : Name) : x ++ t₁ ≠ y ++ t₂ := by
  intro heq
  have h' := congrArg List.reverse heq
  simp only [List.reverse_append] at h'
  exact revMismatchAux_ne h x.reverse y.reverse h'

theorem append_suffix_shift {u t x y : Name}
    (h : x ++ (u ++ t) = y ++ t) : x ++ u = y := by
  rw [← List.append_assoc] at h
  exact List.append_cancel_right h

theorem self_ne_append {t : Name} (ht : t ≠ []) (x : Name) :
    x ≠ x ++ t := by
  intro h
  have hl := congrArg List.length h
  simp only [List.length_append] at hl
  exact ht (List.eq_nil_of_length_eq_zero (by omega))

/-- Every kind claims at least one alias. -/
theorem aliasesOf_ne_nil (k : Kind) (b : Name) : aliasesOf k b ≠ [] := by
  cases k <;> simp [aliasesOf]

/-- A file's declared aliases are pairwise distinct. -/
theorem aliases_nodup (f : File) : f.get_aliases.Nodup := by
  unfold File.get_aliases
  cases f.kind with
  | cc =>
    simp only [aliasesOf, List.nodup_cons, List.mem_singleton,
      List.nodup_nil, and_true, List.not_mem_nil, not_false_iff]
    exact append_suffix_ne (by decide) f.base f.base
  | c =>
    simp only [aliasesOf, List.nodup_cons, List.mem_singleton,
      List.nodup_nil, and_true, List.not_mem_nil, not_false_iff]
    exact append_suffix_ne (by decide) f.base f.base
  | h => simp [aliasesOf]
  | cch =>
    simp only [aliasesOf, List.nodup_cons, List.mem_singleton,
      List.nodup_nil, and_true, List.not_mem_nil, not_false_iff]
    rw [List.append_assoc]
    exact append_suffix_ne (by decide) f.base f.base
  | proto =>
    simp only [aliasesOf, List.nodup_cons, List.mem_cons,
      List.mem_singleton, List.nodup_nil, and_true, List.not_mem_nil,
      not_false_iff, not_or]
    refine ⟨⟨append_suffix_ne (by decide) f.base f.base,
      append_suffix_ne (by decide) f.base f.base⟩, fun h => ?_⟩
    have := List.append_cancel_left h
    exact absurd this (by decide)

theorem lastSlice_mem {l : List Name} {a : Name}
    (h : a ∈ lastSlice l) : a ∈ l := by
  unfold lastSlice at h
  cases hg : l.getLast? with
  | none => rw [hg] at h; simp at h
  | some b =>
    rw [hg] at h
    simp only [List.mem_singleton] at h
    subst h
    exact List.mem_of_mem_getLast? hg

/-- Only `CCFile`/`CFile` answer `DROP`, and only for their own same-base
header file: the other file's kind must be `.h`. -/
theorem drop_analysis {o f : File} (h : has_relation o f = .DROP) :
    (o.kind = .cc ∨ o.kind = .c) ∧ f.kind = .h ∧ f.base = o.base := by
  have core : o.swap_extension (str ".h") = f.filename →
      f.kind = .h ∧ f.base = o.base := by
    intro hc
    unfold File.swap_extension File.filename at hc
    cases hk : f.kind <;> rw [hk] at hc
    case cc => exact absurd hc.symm (append_suffix_ne (by decide) f.base o.base)
    case c => exact absurd hc.symm (append_suffix_ne (by decide) f.base o.base)
    case h => exact ⟨rfl, (List.append_cancel_right hc).symm⟩
    case cch => exact absurd hc.symm (append_suffix_ne (by decide) f.base o.base)
    case proto => exact absurd hc.symm (append_suffix_ne (by decide) f.base o.base)
  cases hk : o.kind <;> simp only [has_relation, hk] at h
  case cc =>
    by_cases hc : o.swap_extension (str ".h") = f.filename
    · exact ⟨Or.inl rfl, core hc⟩
    · rw [if_neg hc] at h; cases h
  case c =>
    by_cases hc : o.swap_extension (str ".h") = f.filename
    · exact ⟨Or.inr rfl, core hc⟩
    · rw [if_neg hc] at h; cases h
  case h => split at h <;> cases h
  case cch => cases h
  case proto => cases h

/-- Only `HeaderFile` answers `REPLACE`. -/
theorem replace_analysis {o f : File}
    (h : has_relation o f = .REPLACE) : o.kind = .h := by
  cases hk : o.kind <;> simp only [has_relation, hk] at h
  case cc => split at h <;> cases h
  case c => split at h <;> cases h
  case h => rfl
  case cch => cases h
  case proto => cases h

/-! ### Alias-map invariants

The key fact behind duplicate-freedom: after a successful alias phase,
a file either owns every alias it declares or owns none (losers of
`DROP`/`REPLACE` are always single-alias header files, so they drop out
of the map entirely). -/

/-- `g` still owns at least one name in the map. -/
def InRange (fm : FMap) (g : File) : Prop := ∃ n, fmFind fm n = some g

/-- Invariant of the alias map over the list `P` of processed files:
every entry is a processed file recorded under one of its own aliases,
and a file owning one of its aliases owns all of them. -/
def MapInv (P : List File) (fm : FMap) : Prop :=
  (∀ n g, fmFind fm n = some g → g ∈ P ∧ n ∈ g.get_aliases) ∧
  (∀ g n m, fmFind fm n = some g → m ∈ g.get_aliases →
    fmFind fm m = some g)

/-- Mid-claim invariant while file `f` has claimed the aliases in
`done` and the remaining ones are still pending. -/
def ClaimInv (P : List File) (f : File) (done : List Name)
    (fm : FMap) : Prop :=
  (∀ n g, fmFind fm n = some g → (g ∈ P ∨ g = f) ∧ n ∈ g.get_aliases) ∧
  (∀ g, g ∈ P → g ≠ f → ∀ n m, fmFind fm n = some g →
    m ∈ g.get_aliases → fmFind fm m = some g) ∧
  ((∀ m, m ∈ done → fmFind fm m = some f) ∨
    ((∀ m, fmFind fm m ≠ some f) ∧ done = f.get_aliases)) ∧
  (∀ m, fmFind fm m = some f → m ∈ done)

theorem fmFind_cons (n m : Name) (f : File) (fm : FMap) :
    fmFind (fmInsert fm n f) m =
      if n = m then some f else fmFind fm m := rfl

/-- A `HeaderFile`'s only alias is its own filename. -/
theorem header_aliases {f : File} (hfh : f.kind = .h) :
    f.get_aliases = [f.filename] := by
  unfold File.get_aliases File.filename
  rw [hfh]
  simp [aliasesOf, extOf]

theorem claim_go (P : List File) (f : File) (hfP : f ∉ P) :
    ∀ (rest done : List Name) (fm : FMap),
      f.get_aliases = done ++ rest →
      ClaimInv P f done fm →
      ∀ fm', claimAliases f rest fm = .ok fm' →
      MapInv (P ++ [f]) fm' := by
  intro rest
  induction rest with
  | nil =>
    intro done fm hsplit hinv fm' hok
    simp only [claimAliases] at hok
    cases hok
    have hdone : done = f.get_aliases := by simpa using hsplit.symm
    constructor
    · intro n g hfind
      obtain ⟨hg, hn⟩ := hinv.1 n g hfind
      refine ⟨?_, hn⟩
      rcases hg with hg | hg
      · exact List.mem_append_left _ hg
      · subst hg; exact List.mem_append_right _ (List.mem_singleton_self _)
    · intro g n m hfind hm
      rcases (hinv.1 n g hfind).1 with hgP | hgf
      · have hgf' : g ≠ f := fun he => hfP (he ▸ hgP)
        exact hinv.2.1 g hgP hgf' n m hfind hm
      · subst hgf
        rcases hinv.2.2.1 with hleft | hright
        · exact hleft m (hdone ▸ hm)
        · exact absurd hfind (hright.1 n)
  | cons n rest' ih =>
    intro done fm hsplit hinv fm' hok
    have hnal : n ∈ f.get_aliases := by
      rw [hsplit]; exact List.mem_append_right _ (List.mem_cons_self _ _)
    have hndone : n ∉ done := by
      have hnodup := aliases_nodup f
      rw [hsplit] at hnodup
      exact fun hmem =>
        (List.nodup_append.mp hnodup).2.2 hmem (List.mem_cons_self _ _)
    have hsplit' : f.get_aliases = (done ++ [n]) ++ rest' := by
      rw [hsplit, List.append_assoc]; rfl
    simp only [claimAliases] at hok
    split at hok
    next hfind =>
      refine ih (done ++ [n]) (fmInsert fm n f) hsplit' ?_ fm' hok
      refine ⟨?_, ?_, ?_, ?_⟩
      · intro m g hf'
        rw [fmFind_cons] at hf'
        by_cases hnm : n = m
        · rw [if_pos hnm] at hf'
          cases hf'
          exact ⟨Or.inr rfl, hnm ▸ hnal⟩
        · rw [if_neg hnm] at hf'
          exact hinv.1 m g hf'
      · intro g hgP hgf n' m hf' hm
        rw [fmFind_cons] at hf'
        by_cases hnn' : n = n'
        · rw [if_pos hnn'] at hf'; cases hf'; exact absurd rfl hgf
        · rw [if_neg hnn'] at hf'
          have hold := hinv.2.1 g hgP hgf n' m hf' hm
          rw [fmFind_cons]
          by_cases hnm : n = m
          · rw [← hnm] at hold; rw [hold] at hfind; cases hfind
          · rw [if_neg hnm]; exact hold
      · rcases hinv.2.2.1 with hleft | hright
        · left
          intro m hmem
          rcases List.mem_append.mp hmem with hd | hn'
          · have hmn : ¬ n = m := fun he => hndone (he ▸ hd)
            rw [fmFind_cons, if_neg hmn]
            exact hleft m hd
          · have hmn : n = m := (List.mem_singleton.mp hn').symm
            rw [fmFind_cons, if_pos hmn]
        · exfalso
          have := hsplit ▸ hright.2
          have hlen := congrArg List.length this
          simp at hlen
      · intro m hf'
        rw [fmFind_cons] at hf'
        by_cases hnm : n = m
        · exact List.mem_append_right _ (List.mem_singleton.mpr hnm.symm)
        · rw [if_neg hnm] at hf'
          exact List.mem_append_left _ (hinv.2.2.2 m hf')
    next o hfind =>
      split at hok
      next hrel => cases hok
      next hrel =>
        obtain ⟨_, hfh, _⟩ := drop_analysis hrel
        have haf : f.get_aliases = [f.filename] := header_aliases hfh
        refine ih (done ++ [n]) fm hsplit' ?_ fm' hok
        have hnotf : ∀ m, fmFind fm m ≠ some f := by
          intro m hf'
          have hmd := hinv.2.2.2 m hf'
          rw [haf] at hsplit
          cases hd : done with
          | nil => rw [hd] at hmd; cases hmd
          | cons a as =>
            rw [hd] at hsplit
            have hlen := congrArg List.length hsplit
            simp [List.length_append] at hlen
        refine ⟨hinv.1, ?_, ?_, ?_⟩
        · intro g hgP hgf n' m hf' hm
          exact hinv.2.1 g hgP hgf n' m hf' hm
        · right
          refine ⟨hnotf, ?_⟩
          rw [haf] at hsplit ⊢
          cases hd : done with
          | nil =>
            rw [hd] at hsplit
            simp only [List.nil_append, List.cons.injEq] at hsplit
            rw [hsplit.1]
            rfl
          | cons a as =>
            rw [hd] at hsplit
            have hlen := congrArg List.length hsplit
            simp [List.length_append] at hlen
        · intro m hf'
          exact absurd hf' (hnotf m)
      next hrel =>
        have hoh := replace_analysis hrel
        have hoal : o.get_aliases = [o.filename] := header_aliases hoh
        have hno : n ∈ o.get_aliases := (hinv.1 n o hfind).2
        have hnfo : n = o.filename := by
          rw [hoal] at hno; exact List.mem_singleton.mp hno
        have hoP : o ∈ P := by
          rcases (hinv.1 n o hfind).1 with h | h
          · exact h
          · exfalso
            rw [h] at hfind
            exact hndone (hinv.2.2.2 n hfind)
        have hfo : f ≠ o := fun he => hfP (he ▸ hoP)
        refine ih (done ++ [n]) (fmInsert fm n f) hsplit' ?_ fm' hok
        refine ⟨?_, ?_, ?_, ?_⟩
        · intro m g hf'
          rw [fmFind_cons] at hf'
          by_cases hnm : n = m
          · rw [if_pos hnm] at hf'
            cases hf'
            exact ⟨Or.inr rfl, hnm ▸ hnal⟩
          · rw [if_neg hnm] at hf'
            exact hinv.1 m g hf'
        · intro g hgP hgf n' m hf' hm
          rw [fmFind_cons] at hf'
          by_cases hnn' : n = n'
          · rw [if_pos hnn'] at hf'; cases hf'; exact absurd rfl hgf
          · rw [if_neg hnn'] at hf'
            by_cases hgo : g = o
            · exfalso
              subst hgo
              have hn'g : n' ∈ g.get_aliases := (hinv.1 n' g hf').2
              rw [hoal] at hn'g
              exact hnn' (hnfo.trans (List.mem_singleton.mp hn'g).symm)
            · have hold := hinv.2.1 g hgP hgf n' m hf' hm
              rw [fmFind_cons]
              by_cases hnm : n = m
              · exfalso
                rw [← hnm] at hold
                rw [hold] at hfind
                cases hfind
                exact hgo rfl
              · rw [if_neg hnm]; exact hold
        · rcases hinv.2.2.1 with hleft | hright
          · left
            intro m hmem
            rcases List.mem_append.mp hmem with hd | hn'
            · have hmn : ¬ n = m := fun he => hndone (he ▸ hd)
              rw [fmFind_cons, if_neg hmn]
              exact hleft m hd
            · have hmn : n = m := (List.mem_singleton.mp hn').symm
              rw [fmFind_cons, if_pos hmn]
          · exfalso
            have := hsplit ▸ hright.2
            have hlen := congrArg List.length this
            simp at hlen
        · intro m hf'
          rw [fmFind_cons] at hf'
          by_cases hnm : n = m
          · exact List.mem_append_right _ (List.mem_singleton.mpr hnm.symm)
          · rw [if_neg hnm] at hf'
            exact List.mem_append_left _ (hinv.2.2.2 m hf')

theorem build_go : ∀ (fs P : List File) (fm : FMap),
    MapInv P fm → ((P ++ fs).map File.filename).Nodup →
    ∀ fm', buildFileMap fs fm = .ok fm' → MapInv (P ++ fs) fm' := by
  intro fs
  induction fs with
  | nil =>
    intro P fm hinv _ fm' hok
    simp only [buildFileMap] at hok
    cases hok
    simpa using hinv
  | cons f fs' ih =>
    intro P fm hinv hnd fm' hok
    simp only [buildFileMap] at hok
    cases hclaim : claimAliases f f.get_aliases fm with
    | error e => rw [hclaim] at hok; cases hok
    | ok fmi =>
      rw [hclaim] at hok
      have hfP : f ∉ P := by
        intro hf
        have hdisj := (List.nodup_append.mp (by
          simpa only [List.map_append] using hnd)).2.2
        exact hdisj (List.mem_map_of_mem File.filename hf)
          (List.mem_map_of_mem File.filename (List.mem_cons_self _ _))
      have hinit : ClaimInv P f [] fm := by
        refine ⟨?_, ?_, Or.inl (by intro m hm; cases hm), ?_⟩
        · intro n g hfind
          exact ⟨Or.inl (hinv.1 n g hfind).1, (hinv.1 n g hfind).2⟩
        · intro g _ _ n m hfind hm
          exact hinv.2 g n m hfind hm
        · intro m hfind
          exact absurd (hinv.1 m f hfind).1 hfP
      have hinv1 : MapInv (P ++ [f]) fmi :=
        claim_go P f hfP f.get_aliases [] fm (by simp) hinit fmi hclaim
      have hres := ih (P ++ [f]) fmi hinv1
        (by simpa using hnd) fm' hok
      simpa using hres

/-- After a successful alias phase the invariant holds of the full
discovery list. -/
theorem fileMap_invariant {files : List File} {fm : FMap}
    (hnd : (files.map File.filename).Nodup)
    (hok : buildFileMap files [] = .ok fm) : MapInv files fm := by
  have hbase : MapInv [] [] := by
    constructor
    · intro n g h; simp [fmFind] at h
    · intro g n m h _; simp [fmFind] at h
  have hres := build_go files [] [] hbase (by simpa using hnd) fm hok
  simpa using hres

/-! ### Edge-resolution lemmas -/

/-- Every dependency recorded by the resolution loop is the alias-map
owner of one of the file's include names, and is never the file itself. -/
theorem resolveList_ok_mem {fm : FMap} {f : File} :
    ∀ {ns : List Name} {ds : List File}, resolveList fm f ns = .ok ds →
      ∀ d ∈ ds, ∃ n, n ∈ ns ∧ fmFind fm n = some d ∧ d ≠ f := by
  intro ns
  induction ns with
  | nil =>
    intro ds hok d hd
    simp only [resolveList] at hok
    cases hok
    cases hd
  | cons n rest ih =>
    intro ds hok d hd
    simp only [resolveList] at hok
    split at hok
    · cases hok
    next d0 hfind =>
      split at hok
      · cases hok
      next ds0 hok0 =>
        cases hok
        by_cases hdf : d0 = f
        · rw [if_pos hdf] at hd
          obtain ⟨m, hm, hfindm, hne⟩ := ih hok0 d hd
          exact ⟨m, List.mem_cons_of_mem _ hm, hfindm, hne⟩
        · rw [if_neg hdf] at hd
          rcases List.mem_cons.mp hd with hd | hd
          · subst hd
            exact ⟨n, List.mem_cons_self _ _, hfind, hdf⟩
          · obtain ⟨m, hm, hfindm, hne⟩ := ih hok0 d hd
            exact ⟨m, List.mem_cons_of_mem _ hm, hfindm, hne⟩

/-- A resolution error is an unresolved-include error for one of the
file's include names (in fact the first unresolved one). -/
theorem resolveList_err {fm : FMap} {f : File} :
    ∀ {ns : List Name} {e : Name}, resolveList fm f ns = .error e →
      ∃ n, n ∈ ns ∧ fmFind fm n = none ∧ e = unresolvedMsg f n := by
  intro ns
  induction ns with
  | nil => intro e hok; simp only [resolveList] at hok; cases hok
  | cons n rest ih =>
    intro e hok
    simp only [resolveList] at hok
    split at hok
    next hfind =>
      cases hok
      exact ⟨n, List.mem_cons_self _ _, hfind, rfl⟩
    next d0 hfind =>
      split at hok
      next e0 hok0 =>
        cases hok
        obtain ⟨m, hm, hfindm, he⟩ := ih hok0
        exact ⟨m, List.mem_cons_of_mem _ hm, hfindm, he⟩
      · cases hok

/-- An include name missing from the map forces the loop to fail. -/
theorem resolveList_none_err {fm : FMap} {f : File} :
    ∀ {ns : List Name}, (∃ n, n ∈ ns ∧ fmFind fm n = none) →
      ∃ e, resolveList fm f ns = .error e := by
  intro ns
  induction ns with
  | nil => intro h; obtain ⟨n, hn, _⟩ := h; cases hn
  | cons n rest ih =>
    intro h
    obtain ⟨m, hm, hfindm⟩ := h
    simp only [resolveList]
    cases hfind : fmFind fm n with
    | none => exact ⟨unresolvedMsg f n, rfl⟩
    | some d0 =>
      have hmr : m ∈ rest := by
        rcases List.mem_cons.mp hm with hm | hm
        · subst hm; rw [hfind] at hfindm; cases hfindm
        · exact hm
      obtain ⟨e, he⟩ := ih ⟨m, hmr, hfindm⟩
      rw [he]
      exact ⟨e, rfl⟩

/-- Exact value of a successful resolution: the map-resolved owners of
the include names, in order, self-edges removed. -/
theorem resolveList_ok_eq {fm : FMap} {f : File} :
    ∀ {ns : List Name} {ds : List File}, resolveList fm f ns = .ok ds →
      ds = ns.filterMap (fun n =>
        match fmFind fm n with
        | none => none
        | some d => if d = f then none else some d) := by
  intro ns
  induction ns with
  | nil =>
    intro ds hok
    simp only [resolveList] at hok
    cases hok
    rfl
  | cons n rest ih =>
    intro ds hok
    simp only [resolveList] at hok
    split at hok
    · cases hok
    next d0 hfind =>
      split at hok
      · cases hok
      next ds0 hok0 =>
        cases hok
        simp only [List.filterMap_cons, hfind]
        by_cases hdf : d0 = f
        · rw [if_pos hdf, if_pos hdf]
          exact ih hok0
        · rw [if_neg hdf, if_neg hdf]
          rw [ih hok0]

/-- Self-edges are dropped: a file is never its own direct dependency. -/
theorem resolve_self_not_mem {fm : FMap} {f : File} {ds : List File}
    (h : resolveIncludes fm f = .ok ds) : f ∉ ds := by
  intro hf
  obtain ⟨n, _, _, hne⟩ := resolveList_ok_mem h f hf
  exact hne rfl

/-! ### Transitive-closure invariants -/

/-- Invariant carried by the traversal state: the seen list is exactly
the accumulated files' filenames, is duplicate-free, and every
accumulated file owns a name in the alias map. -/
def StInv (fm : FMap) (st : List File × List Name) : Prop :=
  st.2 = st.1.map File.filename ∧ st.2.Nodup ∧ ∀ d ∈ st.1, InRange fm d

theorem foldl_step_inv (D : File → List File) (files : List File)
    (fm : FMap) (hinv : MapInv files fm) (fuel : Nat)
    (ihf : ∀ f, f ∈ files → ∀ st, StInv fm st →
      StInv fm (recursive_deps D fuel f st)) :
    ∀ (ds : List File), (∀ d ∈ ds, InRange fm d) →
    ∀ st, StInv fm st →
    StInv fm (ds.foldl (fun st dep =>
      if dep.filename ∈ st.2 then st
      else recursive_deps D fuel dep
        (st.1 ++ [dep], st.2 ++ [dep.filename])) st) := by
  intro ds
  induction ds with
  | nil => intro _ st h; exact h
  | cons d ds' ihd =>
    intro hmem st h
    obtain ⟨h1, h2, h3⟩ := h
    simp only [List.foldl_cons]
    by_cases hseen : d.filename ∈ st.2
    · rw [if_pos hseen]
      exact ihd (fun x hx => hmem x (List.mem_cons_of_mem _ hx))
        st ⟨h1, h2, h3⟩
    · rw [if_neg hseen]
      have hdr : InRange fm d := hmem d (List.mem_cons_self _ _)
      have hdfiles : d ∈ files := by
        obtain ⟨n, hfind⟩ := hdr
        exact (hinv.1 n d hfind).1
      have hst' : StInv fm (st.1 ++ [d], st.2 ++ [d.filename]) := by
        refine ⟨?_, ?_, ?_⟩
        · show st.2 ++ [d.filename] = (st.1 ++ [d]).map File.filename
          rw [List.map_append, h1]; rfl
        · show (st.2 ++ [d.filename]).Nodup
          rw [List.nodup_append]
          exact ⟨h2, List.nodup_singleton _,
            fun a ha hb => hseen ((List.mem_singleton.mp hb) ▸ ha)⟩
        · intro x hx
          rcases List.mem_append.mp hx with hx | hx
          · exact h3 x hx
          · exact (List.mem_singleton.mp hx) ▸ hdr
      exact ihd (fun x hx => hmem x (List.mem_cons_of_mem _ hx))
        (recursive_deps D fuel d (st.1 ++ [d], st.2 ++ [d.filename]))
        (ihf d hdfiles _ hst')

/-- Invariant of the seen-set traversal, for any fuel. -/
theorem recursive_deps_inv (D : File → List File) (files : List File)
    (fm : FMap) (hinv : MapInv files fm)
    (hD : ∀ g, g ∈ files → resolveIncludes fm g = .ok (D g)) :
    ∀ (fuel : Nat) (f : File), f ∈ files →
    ∀ (st : List File × List Name), StInv fm st →
      StInv fm (recursive_deps D fuel f st) := by
  intro fuel
  induction fuel with
  | zero => intro f _ st h; exact h
  | succ fuel ihf =>
    intro f hf st h
    simp only [recursive_deps]
    have hmem : ∀ d ∈ D f, InRange fm d := by
      intro d hd
      obtain ⟨n, _, hfind, _⟩ := resolveList_ok_mem (hD f hf) d hd
      exact ⟨n, hfind⟩
    exact foldl_step_inv D files fm hinv fuel
      (fun g hg => ihf g hg) (D f) hmem st h

/-! ### Distinctness of derived names across the alias map's range -/

/-- Two files still owning names in the completed map that share any
alias are the same file (each owns all of its aliases). -/
theorem shared_alias_eq {files : List File} {fm : FMap}
    (hinv : MapInv files fm) {f g : File} (hf : InRange fm f)
    (hg : InRange fm g) {n : Name} (hnf : n ∈ f.get_aliases)
    (hng : n ∈ g.get_aliases) : f = g := by
  obtain ⟨nf, hff⟩ := hf
  obtain ⟨ng, hgg⟩ := hg
  have h1 := hinv.2 f nf n hff hnf
  have h2 := hinv.2 g ng n hgg hng
  exact Option.some.inj (h1.symm.trans h2)

/-- One file's produced artifact names are pairwise distinct. -/
theorem artifacts_nodup (f : File) : f.artifacts.Nodup := by
  unfold File.artifacts
  cases hk : f.kind <;>
    simp only [producesOf, List.map_cons, List.map_nil, List.nodup_cons,
      List.mem_singleton, List.not_mem_nil, not_false_iff, and_true,
      List.nodup_nil, List.mem_cons, or_false]
  intro h
  exact absurd (List.append_cancel_left h) (by decide)

/-- If two files produce a common artifact name, they also claim a
common alias. -/
theorem artifacts_share_alias {f g : File} {a : Name}
    (haf : a ∈ f.artifacts) (hag : a ∈ g.artifacts) :
    ∃ n, n ∈ f.get_aliases ∧ n ∈ g.get_aliases := by
  unfold File.artifacts at haf hag
  unfold File.get_aliases
  cases hfk : f.kind <;> rw [hfk] at haf <;>
    cases hgk : g.kind <;> rw [hgk] at hag <;>
    simp only [producesOf, List.map_cons, List.map_nil, List.mem_cons,
      List.not_mem_nil, or_false, List.mem_singleton] at haf hag
  -- f = .cc
  · -- g = .cc
    have hb : f.base = g.base :=
      List.append_cancel_right (haf.symm.trans hag)
    exact ⟨f.base ++ str ".h", by simp [aliasesOf], by simp [aliasesOf, hb]⟩
  · -- g = .c
    have hb : f.base = g.base :=
      List.append_cancel_right (haf.symm.trans hag)
    exact ⟨f.base ++ str ".h", by simp [aliasesOf], by simp [aliasesOf, hb]⟩
  · -- g = .cch
    have hb := append_suffix_shift
      (show g.base ++ (str ".cch" ++ str ".o") = f.base ++ str ".o" from
        hag.symm.trans haf)
    exact ⟨g.base ++ str ".cch" ++ str ".h",
      by simp [aliasesOf, ← hb], by simp [aliasesOf]⟩
  · -- g = .proto
    rcases hag with hag | hag
    · have hb := append_suffix_shift
        (show g.base ++ (str ".grpc.pb" ++ str ".o") = f.base ++ str ".o"
          from hag.symm.trans haf)
      exact ⟨g.base ++ str ".grpc.pb.h",
        by simp [aliasesOf, ← hb]; decide, by simp [aliasesOf]⟩
    · have hb := append_suffix_shift
        (show g.base ++ (str ".pb" ++ str ".o") = f.base ++ str ".o"
          from hag.symm.trans haf)
      exact ⟨g.base ++ str ".pb.h",
        by simp [aliasesOf, ← hb]; decide, by simp [aliasesOf]⟩
  -- f = .c
  · -- g = .cc
    have hb : f.base = g.base :=
      List.append_cancel_right (haf.symm.trans hag)
    exact ⟨f.base ++ str ".h", by simp [aliasesOf], by simp [aliasesOf, hb]⟩
  · -- g = .c
    have hb : f.base = g.base :=
      List.append_cancel_right (haf.symm.trans hag)
    exact ⟨f.base ++ str ".h", by simp [aliasesOf], by simp [aliasesOf, hb]⟩
  · -- g = .cch
    have hb := append_suffix_shift
      (show g.base ++ (str ".cch" ++ str ".o") = f.base ++ str ".o" from
        hag.symm.trans haf)
    exact ⟨g.base ++ str ".cch" ++ str ".h",
      by simp [aliasesOf, ← hb], by simp [aliasesOf]⟩
  · -- g = .proto
    rcases hag with hag | hag
    · have hb := append_suffix_shift
        (show g.base ++ (str ".grpc.pb" ++ str ".o") = f.base ++ str ".o"
          from hag.symm.trans haf)
      exact ⟨g.base ++ str ".grpc.pb.h",
        by simp [aliasesOf, ← hb]; decide, by simp [aliasesOf]⟩
    · have hb := append_suffix_shift
        (show g.base ++ (str ".pb" ++ str ".o") = f.base ++ str ".o"
          from hag.symm.trans haf)
      exact ⟨g.base ++ str ".pb.h",
        by simp [aliasesOf, ← hb]; decide, by simp [aliasesOf]⟩
  -- f = .cch
  · -- g = .cc
    have hb := append_suffix_shift
      (show f.base ++ (str ".cch" ++ str ".o") = g.base ++ str ".o" from
        haf.symm.trans hag)
    exact ⟨f.base ++ str ".cch" ++ str ".h",
      by simp [aliasesOf], by simp [aliasesOf, ← hb]⟩
  · -- g = .c
    have hb := append_suffix_shift
      (show f.base ++ (str ".cch" ++ str ".o") = g.base ++ str ".o" from
        haf.symm.trans hag)
    exact ⟨f.base ++ str ".cch" ++ str ".h",
      by simp [aliasesOf], by simp [aliasesOf, ← hb]⟩
  · -- g = .cch
    have hb : f.base = g.base :=
      List.append_cancel_right (haf.symm.trans hag)
    exact ⟨f.base ++ str ".cch", by simp [aliasesOf],
      by simp [aliasesOf, hb]⟩
  · -- g = .proto
    rcases hag with hag | hag
    · exact absurd (haf.symm.trans hag)
        (append_suffix_ne (by decide) f.base g.base)
    · exact absurd (haf.symm.trans hag)
        (append_suffix_ne (by decide) f.base g.base)
  -- f = .proto
  · -- g = .cc
    rcases haf with haf | haf
    · have hb := append_suffix_shift
        (show f.base ++ (str ".grpc.pb" ++ str ".o") = g.base ++ str ".o"
          from haf.symm.trans hag)
      exact ⟨f.base ++ str ".grpc.pb.h",
        by simp [aliasesOf], by simp [aliasesOf, ← hb]; decide⟩
    · have hb := append_suffix_shift
        (show f.base ++ (str ".pb" ++ str ".o") = g.base ++ str ".o"
          from haf.symm.trans hag)
      exact ⟨f.base ++ str ".pb.h",
        by simp [aliasesOf], by simp [aliasesOf, ← hb]; decide⟩
  · -- g = .c
    rcases haf with haf | haf
    · have hb := append_suffix_shift
        (show f.base ++ (str ".grpc.pb" ++ str ".o") = g.base ++ str ".o"
          from haf.symm.trans hag)
      exact ⟨f.base ++ str ".grpc.pb.h",
        by simp [aliasesOf], by simp [aliasesOf, ← hb]; decide⟩
    · have hb := append_suffix_shift
        (show f.base ++ (str ".pb" ++ str ".o") = g.base ++ str ".o"
          from haf.symm.trans hag)
      exact ⟨f.base ++ str ".pb.h",
        by simp [aliasesOf], by simp [aliasesOf, ← hb]; decide⟩
  · -- g = .cch
    rcases haf with haf | haf
    · exact absurd (haf.symm.trans hag)
        (append_suffix_ne (by decide) f.base g.base)
    · exact absurd (haf.symm.trans hag)
        (append_suffix_ne (by decide) f.base g.base)
  · -- g = .proto
    rcases haf with haf | haf <;> rcases hag with hag | hag
    · have hb : f.base = g.base :=
        List.append_cancel_right (haf.symm.trans hag)
      exact ⟨f.base ++ str ".proto", by simp [aliasesOf],
        by simp [aliasesOf, hb]⟩
    · have hb := append_suffix_shift
        (show f.base ++ (str ".grpc" ++ str ".pb.o") = g.base ++ str ".pb.o"
          from haf.symm.trans hag)
      exact ⟨f.base ++ str ".grpc.pb.h",
        by simp [aliasesOf], by simp [aliasesOf, ← hb]; decide⟩
    · have hb := append_suffix_shift
        (show g.base ++ (str ".grpc" ++ str ".pb.o") = f.base ++ str ".pb.o"
          from hag.symm.trans haf)
      exact ⟨g.base ++ str ".grpc.pb.h",
        by simp [aliasesOf, ← hb]; decide, by simp [aliasesOf]⟩
    · have hb : f.base = g.base :=
        List.append_cancel_right (haf.symm.trans hag)
      exact ⟨f.base ++ str ".proto", by simp [aliasesOf],
        by simp [aliasesOf, hb]⟩

/-- Claim C1: for every File, after transitive closure the compile-time
dependency name list and the link-time dependency name list contain no
repeated name (so the defensive duplicate-freedom assertions checked
before emission never fire), in any run whose alias phase succeeded and
whose dependency lists were produced by the edge-resolution loop —
diamonds included. -/
theorem C1_no_duplicate_closure
    (files : List File) (fm : FMap)
    (hnd : (files.map File.filename).Nodup)
    (hmap : buildFileMap files [] = .ok fm)
    (D : File → List File)
    (hD : ∀ g, g ∈ files → resolveIncludes fm g = .ok (D g))
    (f : File) (hf : f ∈ files) (fuel : Nat) :
    (get_compile_dependencies D fuel f).Nodup ∧
    (get_link_dependencies D fuel f).Nodup := by
  have hinv := fileMap_invariant hnd hmap
  have hst := recursive_deps_inv D files fm hinv hD fuel f hf ([], [])
    ⟨rfl, List.nodup_nil, fun d hd => absurd hd (List.not_mem_nil d)⟩
  obtain ⟨h1, h2, h3⟩ := hst
  have hLnd : ((recursiveDeps D fuel f).map File.filename).Nodup := by
    unfold recursiveDeps
    rw [← h1]
    exact h2
  have hLr : ∀ d ∈ recursiveDeps D fuel f, InRange fm d := h3
  have hpw : (recursiveDeps D fuel f).Pairwise (fun x y => x ≠ y) := by
    have hpm := List.pairwise_map.mp hLnd
    exact hpm.imp (fun h he => h (congrArg File.filename he))
  constructor
  · unfold get_compile_dependencies
    rw [List.nodup_flatMap]
    constructor
    · intro x _
      unfold lastSlice
      cases x.get_aliases.getLast? <;> simp
    · refine List.Pairwise.imp_of_mem ?_ hpw
      intro a b ha hb hne y hya hyb
      exact hne (shared_alias_eq hinv (hLr a ha) (hLr b hb)
        (lastSlice_mem hya) (lastSlice_mem hyb))
  · unfold get_link_dependencies
    rw [List.nodup_flatMap]
    refine ⟨fun x _ => artifacts_nodup x, ?_⟩
    refine List.Pairwise.imp_of_mem ?_ hpw
    intro a b ha hb hne y hya hyb
    obtain ⟨n, hna, hnb⟩ := artifacts_share_alias hya hyb
    exact hne (shared_alias_eq hinv (hLr a ha) (hLr b hb) hna hnb)

/-! ### Concrete diamond instance (for the duplicate-freedom claim) -/

/-- `a.cc` includes `b.h` and `c.h`; `b.cc` and `c.cc` both include
`d.h`: the classic diamond. -/
def diamondA : File := ⟨str "a", .cc, [str "b.h", str "c.h"], [], [], false⟩

def diamondB : File := ⟨str "b", .cc, [str "d.h"], [], [], false⟩

def diamondC : File := ⟨str "c", .cc, [str "d.h"], [], [], false⟩

def diamondD : File := ⟨str "d", .cc, [], [], [], false⟩

def diamondFiles : List File := [diamondA, diamondB, diamondC, diamondD]

def diamondFm : FMap :=
  match buildFileMap diamondFiles [] with
  | .ok fm => fm
  | .error _ => []

def diamondDeps : File → List File := fun f =>
  match resolveIncludes diamondFm f with
  | .ok ds => ds
  | .error _ => []

/-- Witness for C1: the diamond's root has duplicate-free views. -/
theorem C1_no_duplicate_closure_witness :
    (get_compile_dependencies diamondDeps 5 diamondA).Nodup ∧
    (get_link_dependencies diamondDeps 5 diamondA).Nodup :=
  C1_no_duplicate_closure diamondFiles diamondFm (by decide) (by decide)
    diamondDeps (by decide) diamondA (by decide) 5

/-! ### Termination of the traversal: the fueled recursion stabilizes

The Python recursion is unbounded but terminates because each recursive
call first inserts an unseen filename into the seen-set.  Here: once the
fuel exceeds the number of distinct filenames, the result no longer
depends on the fuel. -/

/-- Number of world filenames not yet seen. -/
def unseenCount (world seen : List Name) : Nat :=
  (world.filter (fun n => decide (n ∉ seen))).length

theorem unseenCount_mono {seen seen' : List Name}
    (h : ∀ x ∈ seen, x ∈ seen') (world : List Name) :
    unseenCount world seen' ≤ unseenCount world seen := by
  refine List.Sublist.length_le (List.monotone_filter_right world ?_)
  intro a ha
  simp only [decide_eq_true_eq] at ha ⊢
  exact fun hmem => ha (h a hmem)

theorem unseenCount_pos {world seen : List Name} {n : Name}
    (hn : n ∈ world) (hns : n ∉ seen) : 1 ≤ unseenCount world seen := by
  have hmem : n ∈ world.filter (fun m => decide (m ∉ seen)) :=
    List.mem_filter.mpr ⟨hn, by simpa using hns⟩
  exact List.length_pos.mpr (List.ne_nil_of_mem hmem)

theorem unseenCount_lt {world seen : List Name} {n : Name}
    (hn : n ∈ world) (hns : n ∉ seen) :
    unseenCount world (seen ++ [n]) < unseenCount world seen := by
  have hsub : (world.filter (fun m => decide (m ∉ seen ++ [n]))).Sublist
      (world.filter (fun m => decide (m ∉ seen))) := by
    refine List.monotone_filter_right world ?_
    intro a ha
    simp only [decide_eq_true_eq, List.mem_append] at ha ⊢
    exact fun hmem => ha (Or.inl hmem)
  have hin : n ∈ world.filter (fun m => decide (m ∉ seen)) :=
    List.mem_filter.mpr ⟨hn, by simpa using hns⟩
  have hout : n ∉ world.filter (fun m => decide (m ∉ seen ++ [n])) := by
    intro hmem
    have := (List.mem_filter.mp hmem).2
    simp at this
  have hne : world.filter (fun m => decide (m ∉ seen ++ [n])) ≠
      world.filter (fun m => decide (m ∉ seen)) := by
    intro he
    rw [he] at hout
    exact hout hin
  exact Nat.lt_of_le_of_ne hsub.length_le
    (fun he => hne (hsub.eq_of_length he))

/-- The traversal only appends to the accumulator and the seen-set. -/
theorem recursive_deps_extend (D : File → List File) :
    ∀ (fuel : Nat) (f : File) (st : List File × List Name),
      ∃ t1 t2, (recursive_deps D fuel f st).1 = st.1 ++ t1 ∧
        (recursive_deps D fuel f st).2 = st.2 ++ t2 := by
  intro fuel
  induction fuel with
  | zero =>
    intro f st
    exact ⟨[], [], by simp [recursive_deps], by simp [recursive_deps]⟩
  | succ fuel ihf =>
    intro f st
    simp only [recursive_deps]
    induction (D f) generalizing st with
    | nil => exact ⟨[], [], by simp, by simp⟩
    | cons d ds' ihd =>
      simp only [List.foldl_cons]
      by_cases hseen : d.filename ∈ st.2
      · rw [if_pos hseen]
        exact ihd st
      · rw [if_neg hseen]
        obtain ⟨u1, u2, hu1, hu2⟩ :=
          ihf d (st.1 ++ [d], st.2 ++ [d.filename])
        obtain ⟨v1, v2, hv1, hv2⟩ :=
          ihd (recursive_deps D fuel d (st.1 ++ [d], st.2 ++ [d.filename]))
        refine ⟨[d] ++ u1 ++ v1, [d.filename] ++ u2 ++ v2, ?_, ?_⟩
        · rw [hv1, hu1]; simp
        · rw [hv2, hu2]; simp

theorem foldl_step_stable (D : File → List File) (files : List File)
    (a' b' k : Nat) (hak : k ≤ a') (hbk : k ≤ b')
    (hworld : ∀ g, g ∈ files → ∀ d ∈ D g, d ∈ files)
    (ihout : ∀ m, m < k → ∀ (g : File), g ∈ files →
      ∀ (st : List File × List Name) (a b : Nat),
      unseenCount (files.map File.filename) st.2 ≤ m → m < a → m < b →
      recursive_deps D a g st = recursive_deps D b g st) :
    ∀ (ds : List File), (∀ d ∈ ds, d ∈ files) →
    ∀ (st : List File × List Name),
      unseenCount (files.map File.filename) st.2 ≤ k →
    ds.foldl (fun st dep => if dep.filename ∈ st.2 then st
      else recursive_deps D a' dep
        (st.1 ++ [dep], st.2 ++ [dep.filename])) st =
    ds.foldl (fun st dep => if dep.filename ∈ st.2 then st
      else recursive_deps D b' dep
        (st.1 ++ [dep], st.2 ++ [dep.filename])) st := by
  intro ds
  induction ds with
  | nil => intro _ st _; rfl
  | cons d ds' ihd =>
    intro hmem st hcnt
    simp only [List.foldl_cons]
    by_cases hseen : d.filename ∈ st.2
    · rw [if_pos hseen, if_pos hseen]
      exact ihd (fun x hx => hmem x (List.mem_cons_of_mem _ hx)) st hcnt
    · rw [if_neg hseen, if_neg hseen]
      have hdf : d ∈ files := hmem d (List.mem_cons_self _ _)
      have hdw : d.filename ∈ files.map File.filename :=
        List.mem_map_of_mem File.filename hdf
      have hone := unseenCount_pos hdw hseen
      have hdec := unseenCount_lt hdw hseen
      have hcnt' : unseenCount (files.map File.filename)
          (st.2 ++ [d.filename]) ≤ k - 1 := by omega
      have heq := ihout (k - 1) (by omega) d hdf
        (st.1 ++ [d], st.2 ++ [d.filename]) a' b' hcnt'
        (by omega) (by omega)
      rw [heq]
      obtain ⟨t1, t2, _, he2⟩ := recursive_deps_extend D b' d
        (st.1 ++ [d], st.2 ++ [d.filename])
      have hsub : ∀ x ∈ st.2 ++ [d.filename],
          x ∈ (recursive_deps D b' d (st.1 ++ [d], st.2 ++ [d.filename])).2 := by
        rw [he2]
        exact fun x hx => List.mem_append_left _ hx
      have hcnt'' : unseenCount (files.map File.filename)
          (recursive_deps D b' d (st.1 ++ [d], st.2 ++ [d.filename])).2 ≤ k := by
        have := unseenCount_mono hsub (files.map File.filename)
        omega
      exact ihd (fun x hx => hmem x (List.mem_cons_of_mem _ hx)) _ hcnt''

/-- Fuel beyond the unseen-file count does not change the traversal. -/
theorem recursive_deps_stable (D : File → List File) (files : List File)
    (hworld : ∀ g, g ∈ files → ∀ d ∈ D g, d ∈ files) :
    ∀ (k : Nat) (f : File), f ∈ files →
    ∀ (st : List File × List Name) (a b : Nat),
      unseenCount (files.map File.filename) st.2 ≤ k → k < a → k < b →
      recursive_deps D a f st = recursive_deps D b f st := by
  intro k
  induction k using Nat.strong_induction_on with
  | _ k ih =>
    intro f hf st a b hcount ha hb
    match a, b with
    | a' + 1, b' + 1 =>
      simp only [recursive_deps]
      exact foldl_step_stable D files a' b' k (by omega) (by omega)
        hworld ih (D f) (hworld f hf) st hcount

/-- The seen list is exactly the accumulated filenames and never
repeats one, for any dependency function and any fuel. -/
theorem recursive_deps_seen (D : File → List File) :
    ∀ (fuel : Nat) (f : File) (st : List File × List Name),
      st.2 = st.1.map File.filename → st.2.Nodup →
      ((recursive_deps D fuel f st).2 =
        (recursive_deps D fuel f st).1.map File.filename ∧
       (recursive_deps D fuel f st).2.Nodup) := by
  intro fuel
  induction fuel with
  | zero => intro f st h1 h2; exact ⟨h1, h2⟩
  | succ fuel ihf =>
    intro f st h1 h2
    simp only [recursive_deps]
    induction (D f) generalizing st with
    | nil => exact ⟨h1, h2⟩
    | cons d ds' ihd =>
      simp only [List.foldl_cons]
      by_cases hseen : d.filename ∈ st.2
      · rw [if_pos hseen]
        exact ihd st h1 h2
      · rw [if_neg hseen]
        have h1' : st.2 ++ [d.filename] =
            (st.1 ++ [d]).map File.filename := by
          rw [List.map_append, h1]; rfl
        have h2' : (st.2 ++ [d.filename]).Nodup := by
          rw [List.nodup_append]
          exact ⟨h2, List.nodup_singleton _,
            fun a ha hb => hseen ((List.mem_singleton.mp hb) ▸ ha)⟩
        have hrec := ihf d (st.1 ++ [d], st.2 ++ [d.filename]) h1' h2'
        exact ihd _ hrec.1 hrec.2

/-- Claim C8: the transitive-closure traversal terminates on every
dependency graph, cycles included: its fueled approximations stabilize
once the fuel exceeds the number of files (matching the unbounded
recursion, which descends only after adding an unseen filename), the
seen-set visits each File at most once (the accumulated filenames never
repeat), and no error is ever produced — the traversal is a total
function with no cycle check. -/
theorem C8_traversal_terminates (files : List File) (D : File → List File)
    (hworld : ∀ g, g ∈ files → ∀ d ∈ D g, d ∈ files)
    (f : File) (hf : f ∈ files) :
    (∀ fuel, files.length + 1 ≤ fuel →
      recursiveDeps D fuel f = recursiveDeps D (files.length + 1) f) ∧
    (∀ fuel,
      ((recursiveDeps D fuel f).map File.filename).Nodup) := by
  constructor
  · intro fuel hfuel
    unfold recursiveDeps
    have hcnt : unseenCount (files.map File.filename) [] ≤
        files.length := by
      unfold unseenCount
      refine le_trans (List.length_filter_le _ _) ?_
      simp
    have hstable := recursive_deps_stable D files hworld files.length
      f hf ([], []) fuel (files.length + 1) hcnt (by omega) (by omega)
    rw [hstable]
  · intro fuel
    have h := recursive_deps_seen D fuel f ([], []) rfl List.nodup_nil
    unfold recursiveDeps
    rw [← h.1]
    exact h.2

/-- Witness for C8 at the diamond instance (`diamondFiles.length = 4`). -/
theorem C8_traversal_terminates_witness :
    recursiveDeps diamondDeps 7 diamondA =
      recursiveDeps diamondDeps 5 diamondA ∧
    ((recursiveDeps diamondDeps 9 diamondA).map File.filename).Nodup :=
  ⟨(C8_traversal_terminates diamondFiles diamondDeps (by decide)
      diamondA (by decide)).1 7 (by decide),
   (C8_traversal_terminates diamondFiles diamondDeps (by decide)
      diamondA (by decide)).2 9⟩

/-! ### A two-file include cycle: `a.cc → b.h`, `b.cc → a.h` -/

def cycleA : File := ⟨str "a", .cc, [str "b.h"], [], [], false⟩

def cycleB : File := ⟨str "b", .cc, [str "a.h"], [], [], false⟩

def cycleFiles : List File := [cycleA, cycleB]

def cycleFm : FMap :=
  match buildFileMap cycleFiles [] with
  | .ok fm => fm
  | .error _ => []

def cycleDeps : File → List File := fun f =>
  match resolveIncludes cycleFm f with
  | .ok ds => ds
  | .error _ => []

/-- Counterexample to claim C2 as stated: in the include cycle
`a.cc → b.h`, `b.cc → a.h`, the file `a.cc` appears in its own
transitive closure, its compile-time view contains its own header name
`a.h`, and its link-time view contains its own artifact `a.o`
(fuel 3 = number of files + 1 is already the stabilized value). -/
theorem C2_counterexample :
    cycleA ∈ recursiveDeps cycleDeps 3 cycleA ∧
    str "a.h" ∈ get_compile_dependencies cycleDeps 3 cycleA ∧
    str "a.o" ∈ get_link_dependencies cycleDeps 3 cycleA := by decide

/-- Claim C2 amended: a File never appears among its own *direct*
dependencies — the edge-resolution loop silently drops self-edges, so a
direct self-include never lists the file in its own views — but a File
that reaches itself transitively through an include cycle does appear
in its own compile-time and link-time dependency views. -/
theorem C2_amended_no_direct_self_dependency (fm : FMap) (f : File)
    (ds : List File) (h : resolveIncludes fm f = .ok ds) : f ∉ ds :=
  resolve_self_not_mem h

/-- Witness for the amended C2. -/
theorem C2_amended_witness : cycleA ∉ cycleDeps cycleA :=
  C2_amended_no_direct_self_dependency cycleFm cycleA
    (cycleDeps cycleA) (by decide)

/-- Claim C3: for a compiled unit `x.cc` and a header `x.h` both
discovered, in either discovery order, the alias phase succeeds (no
duplicate-alias error is raised) and afterwards the logical name `x.h`
resolves to the `x.cc` File: the header's claim is silently discarded
(`DROP` when the unit came first, `REPLACE` when the header did). -/
theorem C3_header_subsumption (fcc fh : File)
    (hcc : fcc.kind = .cc) (hh : fh.kind = .h)
    (hb : fcc.base = fh.base) :
    (∃ fm, buildFileMap [fcc, fh] [] = .ok fm ∧
      fmFind fm (fh.base ++ str ".h") = some fcc) ∧
    (∃ fm, buildFileMap [fh, fcc] [] = .ok fm ∧
      fmFind fm (fh.base ++ str ".h") = some fcc) := by
  obtain ⟨bc, kc, ic, cc1, lc, tc⟩ := fcc
  obtain ⟨bh2, kh, ih2, ch2, lh2, th2⟩ := fh
  simp only at hcc hh hb
  subst hcc hh hb
  constructor
  · refine ⟨[(bc ++ str ".h", ⟨bc, .cc, ic, cc1, lc, tc⟩),
      (bc ++ str ".cc", ⟨bc, .cc, ic, cc1, lc, tc⟩)], ?_, ?_⟩ <;>
      simp [buildFileMap, claimAliases, File.get_aliases, aliasesOf,
        fmFind, fmInsert, has_relation, File.filename,
        File.swap_extension, extOf, str]
  · refine ⟨[(bc ++ str ".h", ⟨bc, .cc, ic, cc1, lc, tc⟩),
      (bc ++ str ".cc", ⟨bc, .cc, ic, cc1, lc, tc⟩),
      (bc ++ str ".h", ⟨bc, .h, ih2, ch2, lh2, th2⟩)], ?_, ?_⟩ <;>
      simp [buildFileMap, claimAliases, File.get_aliases, aliasesOf,
        fmFind, fmInsert, has_relation, File.filename,
        File.swap_extension, extOf, str]

/-- Witness for C3: concrete `x.cc` / `x.h` pair. -/
theorem C3_header_subsumption_witness :
    (∃ fm, buildFileMap [⟨str "x", .cc, [], [], [], false⟩,
        ⟨str "x", .h, [], [], [], false⟩] [] = .ok fm ∧
      fmFind fm (str "x" ++ str ".h") =
        some ⟨str "x", .cc, [], [], [], false⟩) ∧
    (∃ fm, buildFileMap [⟨str "x", .h, [], [], [], false⟩,
        ⟨str "x", .cc, [], [], [], false⟩] [] = .ok fm ∧
      fmFind fm (str "x" ++ str ".h") =
        some ⟨str "x", .cc, [], [], [], false⟩) :=
  C3_header_subsumption ⟨str "x", .cc, [], [], [], false⟩
    ⟨str "x", .h, [], [], [], false⟩ rfl rfl rfl

/-! ### Substring occurrence (for error-message content) -/

/-- `pat` occurs contiguously inside `s`. -/
def SeqIn (pat s : Name) : Prop := ∃ u v, s = u ++ pat ++ v

/-- `pat` is an initial run of `s`. -/
def leadsWith : Name → Name → Bool
  | [], _ => true
  | _ :: _, [] => false
  | a :: as, b :: bs => a == b && leadsWith as bs

/-- Executable check for `SeqIn`. -/
def containsSeq (pat : Name) : Name → Bool
  | [] => leadsWith pat []
  | s@(_ :: rest) => leadsWith pat s || containsSeq pat rest

theorem leadsWith_of {pat : Name} :
    ∀ {s : Name}, (∃ v, s = pat ++ v) → leadsWith pat s = true := by
  induction pat with
  | nil => intro s _; rfl
  | cons a as ih =>
    intro s hv
    obtain ⟨v, hv⟩ := hv
    subst hv
    simp only [leadsWith, List.cons_append, Bool.and_eq_true, beq_self_eq_true,
      true_and]
    exact ih ⟨v, rfl⟩

theorem containsSeq_of_SeqIn {pat : Name} :
    ∀ {s : Name}, SeqIn pat s → containsSeq pat s = true := by
  intro s
  induction s with
  | nil =>
    intro h
    obtain ⟨u, v, huv⟩ := h
    simp only [containsSeq]
    refine leadsWith_of ⟨v, ?_⟩
    cases u with
    | nil => simpa using huv
    | cons c cs => simp at huv
  | cons c rest ih =>
    intro h
    obtain ⟨u, v, huv⟩ := h
    simp only [containsSeq, Bool.or_eq_true]
    cases u with
    | nil =>
      exact Or.inl (leadsWith_of ⟨v, by simpa using huv⟩)
    | cons c' u' =>
      simp only [List.cons_append, List.cons.injEq] at huv
      exact Or.inr (ih ⟨u', v, huv.2⟩)

/-- The duplicate-alias message contains the contested alias name and
the existing owner's path. -/
theorem dupMsg_contains (n : Name) (o : File) :
    SeqIn n (dupMsg n o) ∧ SeqIn o.filename (dupMsg n o) := by
  constructor
  · exact ⟨[], str " (" ++ typeName o.kind ++ str ") already exists" ++
      str "in file map as " ++ o.filename ++ str " (" ++
      typeName o.kind ++ str ")", by simp [dupMsg, List.append_assoc]⟩
  · exact ⟨n ++ str " (" ++ typeName o.kind ++ str ") already exists" ++
      str "in file map as ", str " (" ++ typeName o.kind ++ str ")",
      by simp [dupMsg, List.append_assoc]⟩

/-- If some pending alias of `f` has an owner whose policy answers
`INCOMPATIBLE`, the claim loop raises; the message is a duplicate-alias
message for some contested name and its owner at that moment. -/
theorem claim_incompatible_fails (f : File) :
    ∀ (ns : List Name) (fm : FMap),
      (∃ n, n ∈ ns ∧ ∃ o, fmFind fm n = some o ∧
        has_relation o f = .INCOMPATIBLE) →
      ∃ e n' o', claimAliases f ns fm = .error e ∧ e = dupMsg n' o' := by
  intro ns
  induction ns with
  | nil =>
    intro fm h
    obtain ⟨n, hn, _⟩ := h
    cases hn
  | cons m rest ih =>
    intro fm h
    obtain ⟨n, hn, o, hfind, hrel⟩ := h
    simp only [claimAliases]
    cases hfindm : fmFind fm m with
    | none =>
      have hmn : m ≠ n := fun he => by rw [he, hfind] at hfindm; cases hfindm
      have hnr : n ∈ rest := by
        rcases List.mem_cons.mp hn with he | he
        · exact absurd he.symm hmn
        · exact he
      have hfind' : fmFind (fmInsert fm m f) n = some o := by
        rw [fmFind_cons, if_neg hmn]
        exact hfind
      obtain ⟨e, n', o', herr, hmsg⟩ :=
        ih (fmInsert fm m f) ⟨n, hnr, o, hfind', hrel⟩
      exact ⟨e, n', o', herr, hmsg⟩
    | some o2 =>
      cases hrel2 : has_relation o2 f with
      | INCOMPATIBLE =>
        simp only [hrel2]
        exact ⟨dupMsg m o2, m, o2, rfl, rfl⟩
      | DROP =>
        simp only [hrel2]
        have hmn : m ≠ n := fun he => by
          rw [he, hfind] at hfindm
          cases hfindm
          rw [hrel] at hrel2
          cases hrel2
        have hnr : n ∈ rest := by
          rcases List.mem_cons.mp hn with he | he
          · exact absurd he.symm hmn
          · exact he
        obtain ⟨e, n', o', herr, hmsg⟩ := ih fm ⟨n, hnr, o, hfind, hrel⟩
        exact ⟨e, n', o', herr, hmsg⟩
      | REPLACE =>
        simp only [hrel2]
        have hmn : m ≠ n := fun he => by
          rw [he, hfind] at hfindm
          cases hfindm
          rw [hrel] at hrel2
          cases hrel2
        have hnr : n ∈ rest := by
          rcases List.mem_cons.mp hn with he | he
          · exact absurd he.symm hmn
          · exact he
        have hfind' : fmFind (fmInsert fm m f) n = some o := by
          rw [fmFind_cons, if_neg hmn]
          exact hfind
        obtain ⟨e, n', o', herr, hmsg⟩ :=
          ih (fmInsert fm m f) ⟨n, hnr, o, hfind', hrel⟩
        exact ⟨e, n', o', herr, hmsg⟩

/-- Claim C6 amended: whenever a file claims an alias whose existing
owner's conflict policy answers `INCOMPATIBLE`, the whole run fails,
and the raised message is a duplicate-alias message containing the
contested alias name and the existing owner's path (with the existing
owner's kind name printed twice) — the new claimant's path is not part
of the message. -/
theorem C6_incompatible_collision_reported (f : File) (fm : FMap)
    (hhit : ∃ n, n ∈ f.get_aliases ∧ ∃ o, fmFind fm n = some o ∧
      has_relation o f = .INCOMPATIBLE) :
    ∃ e n' o', claimAliases f f.get_aliases fm = .error e ∧
      (∀ fs, buildFileMap (f :: fs) fm = .error e) ∧
      e = dupMsg n' o' ∧ SeqIn n' e ∧ SeqIn o'.filename e := by
  obtain ⟨e, n', o', herr, hmsg⟩ :=
    claim_incompatible_fails f f.get_aliases fm hhit
  refine ⟨e, n', o', herr, ?_, hmsg, ?_, ?_⟩
  · intro fs
    simp only [buildFileMap, herr]
  · rw [hmsg]
    exact (dupMsg_contains n' o').1
  · rw [hmsg]
    exact (dupMsg_contains n' o').2

/-! ### An incompatible collision: header `x.pb.h` vs proto `x.proto` -/

def clashH : File := ⟨str "x.pb", .h, [], [], [], false⟩

def clashP : File := ⟨str "x", .proto, [], [], [], false⟩

/-- Witness for the amended C6, with the map state after `x.pb.h` was
discovered and `x.proto` claiming its generated-header alias. -/
theorem C6_incompatible_collision_reported_witness :
    ∃ e n' o', claimAliases clashP clashP.get_aliases
        [(str "x.pb.h", clashH)] = .error e ∧
      (∀ fs, buildFileMap (clashP :: fs) [(str "x.pb.h", clashH)] =
        .error e) ∧
      e = dupMsg n' o' ∧ SeqIn n' e ∧ SeqIn o'.filename e :=
  C6_incompatible_collision_reported clashP [(str "x.pb.h", clashH)]
    ⟨str "x.pb.h", by decide, clashH, by decide, by decide⟩

/-- Counterexample to claim C6 as stated: the duplicate-alias error
raised for the `clashH`/`clashP` collision reports the contested name
and the existing owner's path, but the new claimant's path `x.proto`
appears nowhere in the message (the message interpolates the existing
owner twice instead). -/
theorem C6_counterexample :
    buildFileMap [clashH, clashP] [] =
      .error (dupMsg (str "x.pb.h") clashH) ∧
    ¬ SeqIn clashP.filename (dupMsg (str "x.pb.h") clashH) := by
  refine ⟨by decide, fun h => ?_⟩
  exact absurd (containsSeq_of_SeqIn h) (by decide)

/-- All include names resolving implies a successful edge resolution. -/
theorem resolveList_all_some_ok {fm : FMap} {f : File} :
    ∀ {ns : List Name}, (∀ n, n ∈ ns → ∃ d, fmFind fm n = some d) →
      ∃ ds, resolveList fm f ns = .ok ds := by
  intro ns
  induction ns with
  | nil => intro _; exact ⟨[], rfl⟩
  | cons n rest ih =>
    intro h
    obtain ⟨d, hd⟩ := h n (List.mem_cons_self _ _)
    obtain ⟨ds, hds⟩ := ih (fun m hm => h m (List.mem_cons_of_mem _ hm))
    simp only [resolveList, hd, hds]
    exact ⟨if d = f then ds else d :: ds, rfl⟩

/-- Claim C7: for every file and raw include name, a name missing from
the completed Alias Map aborts the resolution with an error carrying
the referencing file's path and the missing name; otherwise the
dependency list is exactly the map-resolved owners of the include
names, in order, with self-edges silently dropped. -/
theorem C7_include_resolution (fm : FMap) (f : File) :
    (∀ e, resolveIncludes fm f = .error e →
      ∃ n, n ∈ f.includes ∧ fmFind fm n = none ∧
        e = unresolvedMsg f n ∧ SeqIn f.filename e ∧ SeqIn n e) ∧
    ((∃ n, n ∈ f.includes ∧ fmFind fm n = none) →
      ∃ e, resolveIncludes fm f = .error e) ∧
    (∀ ds, resolveIncludes fm f = .ok ds →
      ds = f.includes.filterMap (fun n =>
        match fmFind fm n with
        | none => none
        | some d => if d = f then none else some d)) := by
  refine ⟨?_, ?_, ?_⟩
  · intro e he
    obtain ⟨n, hn, hfind, hmsg⟩ := resolveList_err he
    refine ⟨n, hn, hfind, hmsg, ?_, ?_⟩
    · exact ⟨[], str " references unknown file " ++ n,
        by simp [hmsg, unresolvedMsg, List.append_assoc]⟩
    · exact ⟨f.filename ++ str " references unknown file ", [],
        by simp [hmsg, unresolvedMsg, List.append_assoc]⟩
  · exact resolveList_none_err
  · intro ds h
    exact resolveList_ok_eq h

/-- A compiled unit whose only include has no owner. -/
def lonely : File := ⟨str "a", .cc, [str "missing.h"], [], [], false⟩

/-- Witness for C7 at `lonely` against the empty map. -/
theorem C7_include_resolution_witness :
    ∃ n, n ∈ lonely.includes ∧ fmFind [] n = none ∧
      unresolvedMsg lonely (str "missing.h") = unresolvedMsg lonely n ∧
      SeqIn lonely.filename (unresolvedMsg lonely (str "missing.h")) ∧
      SeqIn n (unresolvedMsg lonely (str "missing.h")) :=
  (C7_include_resolution [] lonely).1
    (unresolvedMsg lonely (str "missing.h")) (by decide)

/-- Claim C10: the header and composite kinds filter out, at parse
time, every include equal to one of the file's own declared aliases;
consequently such an include can never fail resolution (the run
succeeds whenever all the *other* includes resolve) and never yields a
dependency edge — even if the Alias Map assigns that alias name to a
different File, no edge to that owner arises from it. -/
theorem C10_self_alias_filtered (k : Kind) (hk : k = .h ∨ k = .cch)
    (base : Name) (c : Contents) (fm : FMap) :
    (∀ n, n ∈ aliasesOf k base → n ∉ (initFile k base c).includes) ∧
    ((∀ n, n ∈ c.includes → n ∉ aliasesOf k base →
        ∃ d, fmFind fm n = some d) →
      ∃ ds, resolveIncludes fm (initFile k base c) = .ok ds) ∧
    (∀ ds, resolveIncludes fm (initFile k base c) = .ok ds →
      ∀ d ∈ ds, ∃ m, m ∈ c.includes ∧ m ∉ aliasesOf k base ∧
        fmFind fm m = some d) := by
  have hincl : (initFile k base c).includes =
      c.includes.filter (fun s => decide (s ∉ aliasesOf k base)) := by
    rcases hk with rfl | rfl <;> rfl
  refine ⟨?_, ?_, ?_⟩
  · intro n hal hmem
    rw [hincl] at hmem
    have := (List.mem_filter.mp hmem).2
    simp only [decide_eq_true_eq] at this
    exact this hal
  · intro hres
    unfold resolveIncludes
    rw [hincl]
    refine resolveList_all_some_ok ?_
    intro n hn
    have h1 := (List.mem_filter.mp hn).1
    have h2 := (List.mem_filter.mp hn).2
    simp only [decide_eq_true_eq] at h2
    exact hres n h1 h2
  · intro ds hok d hd
    obtain ⟨m, hm, hfind, _⟩ := resolveList_ok_mem hok d hd
    rw [hincl] at hm
    have h1 := (List.mem_filter.mp hm).1
    have h2 := (List.mem_filter.mp hm).2
    simp only [decide_eq_true_eq] at h2
    exact ⟨m, h1, h2, hfind⟩

/-- The contents of a header `x.h` that includes its own name. -/
def selfIncContents : Contents := ⟨[str "x.h"], [], [], [], false⟩

/-- A map in which `x.h` is owned by the compiled unit `x.cc`. -/
def selfIncFm : FMap :=
  [(str "x.h", ⟨str "x", .cc, [], [], [], false⟩),
   (str "x.cc", ⟨str "x", .cc, [], [], [], false⟩)]

/-- Witness for C10: the self-include is filtered out, and resolution
succeeds against a map that does not even contain the other names. -/
theorem C10_self_alias_filtered_witness :
    str "x.h" ∉ (initFile .h (str "x") selfIncContents).includes ∧
    ∃ ds, resolveIncludes selfIncFm
      (initFile .h (str "x") selfIncContents) = .ok ds :=
  ⟨(C10_self_alias_filtered .h (Or.inl rfl) (str "x") selfIncContents
      selfIncFm).1 (str "x.h") (by decide),
   (C10_self_alias_filtered .h (Or.inl rfl) (str "x") selfIncContents
      selfIncFm).2.1 (by
        intro n hn hna
        exfalso
        apply hna
        have hnx : n = str "x.h" := by
          simpa [selfIncContents] using hn
        rw [hnx]
        decide)⟩

/-! ### Rule emission

Each `print(x)` call contributes `x ++ "\n"` to the output stream,
which is modelled as one list of characters. -/

/-- `Emitted` struct returned by `emit()`.  The `None` defaults and
empty lists are both falsy in the `__main__` accumulation loop, so
both are modelled as `[]`. -/
structure Emitted where
  directories : List Name := []
  executables : List Name := []
  patterns : List Name := []
deriving DecidableEq, Repr

/-- `self.fullpath`: the discovery path; `File.__init__` asserts it
starts with `src_dir` and strips that prefix into `filename`, so the
full path is `src_dir + filename`. -/
def File.fullpath (srcDir : Name) (f : File) : Name := srcDir ++ f.filename

/-- The two printed lines of `CCFile.emit`'s compile rule plus the
following blank line. -/
def ccCompileText (D : File → List File) (fuel : Nat)
    (srcDir outDir : Name) (f : File) : Name :=
  pathjoin outDir (f.swap_extension (str ".o")) ++ str ": " ++
    File.fullpath srcDir f ++ str " " ++
    joinSpace ((get_compile_dependencies D fuel f).map (pathjoin outDir))
    ++ nl ++
  str "\t$(CXX) $(CXXFLAGS) $(PB_INCLUDES) " ++
    joinSpace f.compileargs ++ str " -I" ++ srcDir ++ str " -I" ++
    outDir ++ str " -c $< -o $@" ++ nl ++ nl

/-- The two printed lines of `CCFile.emit`'s link rule plus the
following blank line. -/
def ccLinkText (D : File → List File) (fuel : Nat)
    (outDir : Name) (f : File) : Name :=
  pathjoin outDir (f.swap_extension (str "")) ++ str ": " ++
    joinSpace ((get_link_dependencies D fuel f).map (pathjoin outDir)) ++
    str " " ++ pathjoin outDir (f.swap_extension (str ".o")) ++ nl ++
  str "\t$(CXX) $(CXXFLAGS) -o $@ $^ $(PB_LIBS) " ++
    joinSpace (get_linkargs D fuel f ++ f.linkargs) ++
    str " -pthread" ++ nl ++ nl

/-- `CCFile.emit`: compile rule always; the link rule and the reported
executable only under the private link-target flag. -/
def emitCC (D : File → List File) (fuel : Nat) (srcDir outDir : Name)
    (f : File) : Name × Emitted :=
  if f.is_link_target then
    (ccCompileText D fuel srcDir outDir f ++ ccLinkText D fuel outDir f,
     ⟨[dirname (pathjoin outDir (f.swap_extension (str ".o")))],
      [pathjoin outDir (f.swap_extension (str ""))], []⟩)
  else
    (ccCompileText D fuel srcDir outDir f,
     ⟨[dirname (pathjoin outDir (f.swap_extension (str ".o")))], [], []⟩)

/-- The printed lines of `CFile.emit` (compile rule only — the class
has no link logic at all). -/
def cCompileText (D : File → List File) (fuel : Nat)
    (srcDir outDir : Name) (f : File) : Name :=
  pathjoin outDir (f.swap_extension (str ".o")) ++ str ": " ++
    File.fullpath srcDir f ++ str " " ++
    joinSpace ((get_compile_dependencies D fuel f).map (pathjoin outDir))
    ++ nl ++
  str "\t$(CC) $(CFLAGS) -I" ++ srcDir ++ str " -I" ++ outDir ++
    str " " ++ joinSpace f.compileargs ++ str " -c $< -o $@" ++ nl ++ nl

def emitC (D : File → List File) (fuel : Nat) (srcDir outDir : Name)
    (f : File) : Name × Emitted :=
  (cCompileText D fuel srcDir outDir f,
   ⟨[dirname (pathjoin outDir (f.swap_extension (str ".o")))], [], []⟩)

/-- `HeaderFile.emit`: prints nothing; returns the copy pattern rule. -/
def emitHeader (srcDir outDir : Name) (f : File) : Name × Emitted :=
  ([], ⟨[pathjoin outDir (dirname f.filename)], [],
    [pathjoin (pathjoin outDir (dirname f.filename)) (str "%.h") ++
      str ": " ++ pathjoin3 srcDir (dirname f.filename) (str "%.h") ++
      nl ++ str "\tcp $< $@" ++ nl]⟩)

/-- `CCHFile.emit`. -/
def emitCCH (D : File → List File) (fuel : Nat) (srcDir outDir : Name)
    (f : File) : Name × Emitted :=
  (pathjoin outDir (f.swap_extension (str ".cch.o")) ++ str ": " ++
     pathjoin outDir (f.swap_extension (str ".cch.cc")) ++ str " " ++
     joinSpace ((get_compile_dependencies D fuel f).map (pathjoin outDir))
     ++ nl ++
   str "\t$(CXX) $(CXXFLAGS) $(PB_INCLUDES) -I" ++ srcDir ++ str " -I" ++
     outDir ++ str " " ++ joinSpace f.compileargs ++ str " -c $< -o $@" ++
     nl ++ nl,
   ⟨[pathjoin outDir (dirname f.filename)], [],
    [pathjoin (pathjoin outDir (dirname f.filename)) (str "%.cch") ++
       str ".cc " ++
       pathjoin (pathjoin outDir (dirname f.filename)) (str "%.cch") ++
       str ".h: " ++ pathjoin3 srcDir (dirname f.filename) (str "%.cch") ++
       nl ++ str "\t$(CCH) --input $< --include=" ++
       pathjoin (dirname f.filename) (str "%f") ++ str " --output=" ++
       pathjoin outDir (dirname f.filename) ++ str "/%f" ++ nl]⟩)

/-- One compiled stanza of `ProtobufFile.emit`'s loop (no blank line;
the single blank is printed after the loop). -/
def protoStanza (D : File → List File) (fuel : Nat) (outDir : Name)
    (f : File) (cc_file obj_file : Name) : Name :=
  obj_file ++ str ": " ++ cc_file ++ str " " ++
    joinSpace ((get_compile_dependencies D fuel f).map (pathjoin outDir))
    ++ nl ++
  str "\t$(CXX) $(CXXFLAGS) $(PB_INCLUDES) -I" ++ outDir ++
    str " -c $< -o $@" ++ nl

/-- `ProtobufFile.emit`: the pb stanza, then the grpc stanza, then one
blank line; returns the protoc pattern rule. -/
def emitProto (D : File → List File) (fuel : Nat) (srcDir outDir : Name)
    (f : File) : Name × Emitted :=
  (protoStanza D fuel outDir f
     (pathjoin outDir (f.swap_extension (str ".pb.cc")))
     (pathjoin outDir (f.swap_extension (str ".pb.o"))) ++
   protoStanza D fuel outDir f
     (pathjoin outDir (f.swap_extension (str ".grpc.pb.cc")))
     (pathjoin outDir (f.swap_extension (str ".grpc.pb.o"))) ++ nl,
   ⟨[pathjoin outDir (dirname f.filename)], [],
    [joinSpace ([str "%.grpc.pb.cc", str "%.grpc.pb.h", str "%.pb.cc",
        str "%.pb.h"].map (pathjoin (pathjoin outDir (dirname f.filename))))
       ++ str ": " ++ pathjoin3 srcDir (dirname f.filename) (str "%.proto")
       ++ nl ++ str "\t$(PROTOC) --grpc_out=" ++ outDir ++
       str " --cpp_out=" ++ outDir ++ str " -I" ++ srcDir ++ str " $<" ++
       nl]⟩)

/-- Kind dispatch of `emit` (the base-class default, which emits
nothing, is never reached: every registered kind overrides it). -/
def File.emit (D : File → List File) (fuel : Nat) (srcDir outDir : Name)
    (f : File) : Name × Emitted :=
  match f.kind with
  | .cc => emitCC D fuel srcDir outDir f
  | .c => emitC D fuel srcDir outDir f
  | .h => emitHeader srcDir outDir f
  | .cch => emitCCH D fuel srcDir outDir f
  | .proto => emitProto D fuel srcDir outDir f

/-! ### The whole `__main__` pipeline -/

/-- Command-line parameters that reach the output document. -/
structure Args where
  std : Name
  cstd : Name
  optimization : Name
  build_root : Name
  src_root : Name
deriving DecidableEq, Repr

/-- The Makefile preamble, printed before discovery even starts: tool
variables, flags, the `default` and `clean` targets (one `print` of a
dedented f-string, so the stream gets the text plus a final newline). -/
def preamble (a : Args) : Name :=
  str "CC ?= gcc\nCXX ?= g++\nCCH ?= cch\nCFLAGS = -std=" ++ a.cstd ++
  str " -O" ++ a.optimization ++ str " -Wall -Wextra -Werror\n" ++
  str "CXXFLAGS = -g -std=" ++ a.std ++ str " -O" ++ a.optimization ++
  str " -Wall -Wextra -Werror -Wno-unused-parameter -Wno-sign-compare\n\n" ++
  str "PROTOC ?= ./grpc/cmake/build/third_party/protobuf/protoc --plugin=protoc-gen-grpc=grpc/cmake/build/grpc_cpp_plugin\n\n" ++
  str "PB_INCLUDES = -Igrpc/include/ -Igrpc/third_party/protobuf/src/\n" ++
  str "PB_LIBS = -Lgrpc/cmake/build/ -lprotobuf $(shell PKG_CONFIG_PATH=grpc/cmake/build/libs/opt/pkgconfig/ pkg-config --libs-only-l grpc++_unsecure) -lupb -lcares -lz -laddress_sorting\n\n" ++
  str ".PHONY: default\ndefault: all\n\n" ++
  str ".PHONY: clean\nclean:\n\trm -rf " ++ a.build_root ++ str "\n" ++
  str "\n"

/-- Like `joinSpace` but with an arbitrary separator. -/
def joinBySep (sep : Name) : List Name → Name
  | [] => []
  | [x] => x
  | x :: y :: xs => x ++ sep ++ joinBySep sep (y :: xs)

/-- The emission loop at the end of `__main__`: for each file, the
defensive duplicate assertions run first (`assert len(cd) == len(set(cd))`,
modelled as `Nodup` checks; an `AssertionError` aborts), then the
kind's `emit` prints its stanzas and its `Emitted` fields accumulate:
executables in order, patterns de-duplicated (the Python `set`'s
iteration order is modelled as first-insertion order; the directories
set only feeds the final `mkdir` filesystem effect, outside the
model). -/
def emitLoop (D : File → List File) (fuel : Nat) (srcDir outDir : Name) :
    List File → Name → List Name → List Name →
    Name × Except Name (List Name × List Name)
  | [], out, exes, pats => (out, .ok (exes, pats))
  | f :: fs, out, exes, pats =>
    if (get_compile_dependencies D fuel f).Nodup ∧
        (get_link_dependencies D fuel f).Nodup then
      emitLoop D fuel srcDir outDir fs
        (out ++ (File.emit D fuel srcDir outDir f).1)
        (exes ++ (File.emit D fuel srcDir outDir f).2.executables)
        (pats ++ (File.emit D fuel srcDir outDir f).2.patterns.filter
          (fun p => decide (p ∉ pats)))
    else (out, .error (str "AssertionError"))

/-- Post-loop output: the accumulated pattern rules (each `print` adds
a newline to pattern text already ending in one), one convenience
target per executable directory, and the final dedented
`builddirs`/`all` block (whose `all:` line carries the whitespace left
by the f-string line continuation and the `" \\\n    \t"` join
separator after `dedent`). -/
def postamble (exes pats : List Name) : Name :=
  (pats.flatMap (fun p => p ++ nl)) ++
  ((exes.map dirname).dedup.flatMap (fun d =>
    d ++ str " " ++ d ++ str "/: " ++
    joinSpace (exes.filter (fun e => decide (dirname e = d))) ++
    nl ++ nl)) ++
  str ".PHONY: builddirs\nbuilddirs:\n\t@mkdir -p\n\n" ++
  str ".PHONY: all\nall:     \t" ++
  joinBySep (str " \\\n\t") exes ++ str "\n" ++ str "\n"

/-- The `__main__` pipeline after argument parsing: preamble printed
first, then the alias phase, then edge resolution, then emission and
the postamble.  Returns everything printed to stdout up to normal
completion or the uncaught exception (which leaves the already-printed
prefix on the stream).  The closure fuel `files.length + 1` is the
stabilized value of the unbounded Python recursion. -/
def runGen (a : Args) (files : List File) : Name × Except Name Unit :=
  match buildFileMap files [] with
  | .error e => (preamble a, .error e)
  | .ok fm =>
    match resolveAll fm files with
    | .error e => (preamble a, .error e)
    | .ok depList =>
      match emitLoop (mkD depList) (files.length + 1) a.src_root
          a.build_root files [] [] [] with
      | (out1, .error e) => (preamble a ++ out1, .error e)
      | (out1, .ok (exes, pats)) =>
        (preamble a ++ out1 ++ postamble exes pats, .ok ())

/-- Claim C5 amended: every failure aborts the run with no further
output, but what was already printed stays on the stream: the preamble
is printed before any validation, so a failed run's output is never
empty — it is exactly the preamble for alias-phase and edge-phase
failures, and the preamble plus the stanzas emitted so far for an
assertion failure during emission. -/
theorem C5_failure_keeps_printed_prefix (a : Args) (files : List File)
    (out : Name) (e : Name) (h : runGen a files = (out, .error e)) :
    preamble a <+: out ∧ out ≠ [] ∧
    ((∃ e', buildFileMap files [] = .error e') → out = preamble a) := by
  have hpre : preamble a ≠ [] := by
    intro hp
    simp only [preamble] at hp
    exact absurd (List.append_eq_nil.mp hp).2 (by decide)
  unfold runGen at h
  cases hb : buildFileMap files [] with
  | error e' =>
    simp only [hb] at h
    injection h with h1 h2
    subst h1
    exact ⟨⟨[], List.append_nil _⟩, hpre, fun _ => rfl⟩
  | ok fm =>
    simp only [hb] at h
    cases hr : resolveAll fm files with
    | error e' =>
      simp only [hr] at h
      injection h with h1 h2
      subst h1
      refine ⟨⟨[], List.append_nil _⟩, hpre, fun _ => rfl⟩
    | ok depList =>
      simp only [hr] at h
      rcases hemit : emitLoop (mkD depList) (files.length + 1)
          a.src_root a.build_root files [] [] [] with ⟨out1, r⟩
      rw [hemit] at h
      cases r with
      | error e' =>
        injection h with h1 h2
        subst h1
        refine ⟨⟨out1, rfl⟩, ?_, ?_⟩
        · intro hz
          exact hpre (List.append_eq_nil.mp hz).1
        · intro he
          obtain ⟨e'', he''⟩ := he
          cases he''
      | ok pr =>
        obtain ⟨exes, pats⟩ := pr
        injection h with h1 h2
        cases h2

def exArgs : Args := ⟨str "c++11", str "c11", str "2", str "build",
  str "src/"⟩

set_option maxRecDepth 40000 in
/-- Counterexample to claim C5 as stated: the run over the single file
`a.cc` (which includes the unresolvable `missing.h`) aborts with an
unresolved-include error, yet the output stream is not empty — the
entire preamble has already been printed. -/
theorem C5_counterexample :
    (runGen exArgs [lonely]).2 =
      .error (unresolvedMsg lonely (str "missing.h")) ∧
    (runGen exArgs [lonely]).1 = preamble exArgs ∧
    (runGen exArgs [lonely]).1 ≠ [] := by
  refine ⟨by decide, by decide, by decide⟩

set_option maxRecDepth 40000 in
/-- Witness for the amended C5, at the same failing run. -/
theorem C5_failure_keeps_printed_prefix_witness :
    preamble exArgs <+: (runGen exArgs [lonely]).1 ∧
    (runGen exArgs [lonely]).1 ≠ [] ∧
    ((∃ e', buildFileMap [lonely] [] = .error e') →
      (runGen exArgs [lonely]).1 = preamble exArgs) :=
  C5_failure_keeps_printed_prefix exArgs [lonely]
    (runGen exArgs [lonely]).1
    (unresolvedMsg lonely (str "missing.h")) (by decide)

/-- Claim C4 amended: for a language-A compiled unit (`.cc`) built from
its extracted text, an entry-point declaration makes `emit` print the
additional (non-empty) link stanza after the compile stanza and report
the produced binary as an executable; without one, only the compile
stanza is printed and no executable is reported.  A language-B unit
(`.c`) never checks for an entry point: its emission is always the
compile stanza alone with no executable, whatever its text contains. -/
theorem C4_entry_point_link (D : File → List File) (fuel : Nat)
    (srcDir outDir base : Name) (c : Contents) :
    ((initFile .cc base c).is_link_target = c.has_main) ∧
    (c.has_main = true →
      File.emit D fuel srcDir outDir (initFile .cc base c) =
        (ccCompileText D fuel srcDir outDir (initFile .cc base c) ++
          ccLinkText D fuel outDir (initFile .cc base c),
         ⟨[dirname (pathjoin outDir
            ((initFile .cc base c).swap_extension (str ".o")))],
          [pathjoin outDir ((initFile .cc base c).swap_extension (str ""))],
          []⟩) ∧
      ccLinkText D fuel outDir (initFile .cc base c) ≠ []) ∧
    (c.has_main = false →
      File.emit D fuel srcDir outDir (initFile .cc base c) =
        (ccCompileText D fuel srcDir outDir (initFile .cc base c),
         ⟨[dirname (pathjoin outDir
            ((initFile .cc base c).swap_extension (str ".o")))], [], []⟩)) ∧
    (File.emit D fuel srcDir outDir (initFile .c base c) =
      (cCompileText D fuel srcDir outDir (initFile .c base c),
       ⟨[dirname (pathjoin outDir
          ((initFile .c base c).swap_extension (str ".o")))], [], []⟩)) := by
  refine ⟨rfl, ?_, ?_, rfl⟩
  · intro hm
    constructor
    · simp only [File.emit, initFile, emitCC]
      rw [if_pos (by simpa [initFile] using hm)]
    · intro hz
      simp only [ccLinkText, nl, List.append_eq_nil] at hz
      exact absurd hz.2 (by decide)
  · intro hm
    simp only [File.emit, initFile, emitCC]
    rw [if_neg (by simpa [initFile] using hm)]

/-- Contents of a language-B unit whose text declares an entry point. -/
def cMainContents : Contents := ⟨[], [], [], [], true⟩

/-- Counterexample to claim C4 as stated: a `.c` unit whose text
contains a program-entry-point declaration (`has_main` extracted as
true) still registers no executable, and its whole emission is the
compile stanza alone — no link rule is added. -/
theorem C4_counterexample :
    cMainContents.has_main = true ∧
    (File.emit (fun _ => []) 1 (str "s/") (str "b")
      (initFile .c (str "m") cMainContents)).2.executables = [] ∧
    (File.emit (fun _ => []) 1 (str "s/") (str "b")
        (initFile .c (str "m") cMainContents)).1 =
      cCompileText (fun _ => []) 1 (str "s/") (str "b")
        (initFile .c (str "m") cMainContents) :=
  ⟨rfl, rfl, rfl⟩

/-- Contents of a language-A unit whose text declares an entry point. -/
def ccMainContents : Contents := ⟨[], [], [], [], true⟩

/-- Witness for the amended C4. -/
theorem C4_entry_point_link_witness :
    File.emit (fun _ => []) 1 (str "s/") (str "b")
        (initFile .cc (str "m") ccMainContents) =
      (ccCompileText (fun _ => []) 1 (str "s/") (str "b")
          (initFile .cc (str "m") ccMainContents) ++
        ccLinkText (fun _ => []) 1 (str "b")
          (initFile .cc (str "m") ccMainContents),
       ⟨[dirname (pathjoin (str "b")
          ((initFile .cc (str "m") ccMainContents).swap_extension
            (str ".o")))],
        [pathjoin (str "b")
          ((initFile .cc (str "m") ccMainContents).swap_extension
            (str ""))], []⟩) ∧
      ccLinkText (fun _ => []) 1 (str "b")
        (initFile .cc (str "m") ccMainContents) ≠ [] :=
  (C4_entry_point_link (fun _ => []) 1 (str "s/") (str "b") (str "m")
    ccMainContents).2.1 rfl

/-- Joining a list whose last element is `a` puts `a` at the end. -/
theorem joinSpace_snoc (xs : List Name) (a : Name) :
    ∃ p, joinSpace (xs ++ [a]) = p ++ a := by
  induction xs with
  | nil => exact ⟨[], rfl⟩
  | cons x xs ih =>
    cases xs with
    | nil => exact ⟨x ++ [' '], by simp [joinSpace]⟩
    | cons y ys =>
      obtain ⟨p, hp⟩ := ih
      rw [List.cons_append] at hp
      exact ⟨x ++ ' ' :: p, by simp [joinSpace, hp]⟩

/-- Claim C9: a compiled unit carrying two compile-flag annotation
lines and one link-flag annotation line, whose text declares an entry
point, emits a compile recipe in which both compile-flag strings occur
in source order (joined by a single space), followed by a link recipe
in which the link-flag string occurs; the emitted text is exactly the
compile stanza followed by the link stanza. -/
theorem C9_flag_propagation (D : File → List File) (fuel : Nat)
    (srcDir outDir base : Name) (c : Contents) (a1 a2 l1 : Name)
    (hca : c.compileargs = [a1, a2]) (hla : c.linkargs = [l1])
    (hm : c.has_main = true) :
    ∃ u1 u2 u3 u4,
      ccCompileText D fuel srcDir outDir (initFile .cc base c) =
        u1 ++ a1 ++ (' ' :: a2) ++ u2 ∧
      ccLinkText D fuel outDir (initFile .cc base c) =
        u3 ++ l1 ++ u4 ∧
      (File.emit D fuel srcDir outDir (initFile .cc base c)).1 =
        ccCompileText D fuel srcDir outDir (initFile .cc base c) ++
        ccLinkText D fuel outDir (initFile .cc base c) := by
  have hargs : (initFile .cc base c).compileargs = [a1, a2] := hca
  have hlargs : (initFile .cc base c).linkargs = [l1] := hla
  obtain ⟨p, hp⟩ := joinSpace_snoc
    (get_linkargs D fuel (initFile .cc base c)) l1
  refine ⟨pathjoin outDir ((initFile .cc base c).swap_extension (str ".o"))
      ++ str ": " ++ File.fullpath srcDir (initFile .cc base c) ++
      str " " ++ joinSpace ((get_compile_dependencies D fuel
        (initFile .cc base c)).map (pathjoin outDir)) ++ nl ++
      str "\t$(CXX) $(CXXFLAGS) $(PB_INCLUDES) ",
    str " -I" ++ srcDir ++ str " -I" ++ outDir ++ str " -c $< -o $@" ++
      nl ++ nl,
    pathjoin outDir ((initFile .cc base c).swap_extension (str "")) ++
      str ": " ++ joinSpace ((get_link_dependencies D fuel
        (initFile .cc base c)).map (pathjoin outDir)) ++ str " " ++
      pathjoin outDir ((initFile .cc base c).swap_extension (str ".o"))
      ++ nl ++ str "\t$(CXX) $(CXXFLAGS) -o $@ $^ $(PB_LIBS) " ++ p,
    str " -pthread" ++ nl ++ nl, ?_, ?_, ?_⟩
  · rw [ccCompileText, hargs]
    simp [joinSpace, List.append_assoc]
  · rw [ccLinkText, hlargs, hp]
    simp [List.append_assoc]
  · simp only [File.emit, initFile, emitCC]
    rw [if_pos (by simpa [initFile] using hm)]

/-- Contents with two compile flags, one link flag, and an entry
point. -/
def flaggedContents : Contents :=
  ⟨[], [], [str "-Ione", str "-Itwo"], [str "-lz"], true⟩

/-- Witness for C9. -/
theorem C9_flag_propagation_witness :
    ∃ u1 u2 u3 u4,
      ccCompileText (fun _ => []) 1 (str "s/") (str "b")
          (initFile .cc (str "m") flaggedContents) =
        u1 ++ str "-Ione" ++ (' ' :: str "-Itwo") ++ u2 ∧
      ccLinkText (fun _ => []) 1 (str "b")
          (initFile .cc (str "m") flaggedContents) =
        u3 ++ str "-lz" ++ u4 ∧
      (File.emit (fun _ => []) 1 (str "s/") (str "b")
          (initFile .cc (str "m") flaggedContents)).1 =
        ccCompileText (fun _ => []) 1 (str "s/") (str "b")
          (initFile .cc (str "m") flaggedContents) ++
        ccLinkText (fun _ => []) 1 (str "b")
          (initFile .cc (str "m") flaggedContents) :=
  C9_flag_propagation (fun _ => []) 1 (str "s/") (str "b") (str "m")
    flaggedContents (str "-Ione") (str "-Itwo") (str "-lz") rfl rfl rfl
